import Mathlib

/-!
Verification development for the `consolidated.py` utility of the
`roomies_web` repository.

The program walks configured top-level folders of a source tree,
concatenates matching files into one per-folder artifact, rewrites each
artifact's leading header with the final file count, composes a master
artifact from all per-folder artifacts, and reports line/token totals.

Text is modelled as `List Char` (`Str`), the filesystem as a finite tree,
the external tokenizer as an arbitrary function `Str → Nat`.  The
implementation-side definitions mirror the Python source line by line;
spec-side definitions (declarative sums, `masterSpec`) are written from
the specification and proved to coincide.
-/

/-- Model of Python text, as a list of characters. -/
abbrev Str := List Char

/-- Literal helper: the character data of a Lean string literal. -/
def str (s : String) : Str := s.data

/-- Path separator, as in `os.path.join` on a POSIX system. -/
def slash : Str := str "/"

/-- `os.path.join output_dir name` for a relative `name`. -/
def joinPath (a b : Str) : Str := a ++ slash ++ b

/-! ## Line splitting (`str.splitlines`) -/

/-- The line-boundary characters recognised by Python `str.splitlines`. -/
def lineBreakChars : Str :=
  [Char.ofNat 10, Char.ofNat 13, Char.ofNat 11, Char.ofNat 12,
   Char.ofNat 28, Char.ofNat 29, Char.ofNat 30, Char.ofNat 133,
   Char.ofNat 8232, Char.ofNat 8233]

/-- Worker for `splitlines`: `cur` is the current line, reversed. -/
def splitlinesGo : Str → Str → List Str
  | cur, [] => if cur.isEmpty then [] else [cur.reverse]
  | cur, '\r' :: '\n' :: cs => cur.reverse :: splitlinesGo [] cs
  | cur, c :: cs =>
      if c ∈ lineBreakChars then cur.reverse :: splitlinesGo [] cs
      else splitlinesGo (c :: cur) cs

/-- Python `content.splitlines()`. -/
def splitlines (cs : Str) : List Str := splitlinesGo [] cs

/-- `len(content.splitlines())`: the line count of a file. -/
def numLines (cs : Str) : Nat := (splitlines cs).length

/-! ## Decimal rendering of a count (`str(n)` in an f-string) -/

/-- One decimal digit character. -/
def digitChar : Nat → Char
  | 0 => '0' | 1 => '1' | 2 => '2' | 3 => '3' | 4 => '4'
  | 5 => '5' | 6 => '6' | 7 => '7' | 8 => '8' | 9 => '9'
  | _ => '*'

/-- Fuel-driven decimal rendering (fuel `n+1` always suffices). -/
def natStrGo : Nat → Nat → Str
  | 0, _ => []
  | fuel + 1, n =>
      if n < 10 then [digitChar n]
      else natStrGo fuel (n / 10) ++ [digitChar (n % 10)]

/-- Decimal rendering of a natural number, as Python `str(n)`. -/
def natStr (n : Nat) : Str := natStrGo (n + 1) n

/-! ## `os.path.splitext` (extension part, for a bare file name) -/

/-- Index of the last `.` in a name, if any. -/
def lastDotPos (cs : Str) : Option Nat :=
  match cs.reverse.findIdx? (fun c => c == '.') with
  | none => none
  | some j => some (cs.length - 1 - j)

/-- The extension part of `os.path.splitext(name)`: the segment from the
last dot on, empty when the name has no dot or only leading dots. -/
def splitextExt (cs : Str) : Str :=
  match lastDotPos cs with
  | none => []
  | some i => if (cs.take i).any (fun c => c != '.') then cs.drop i else []

/-! ## Extension-to-language mapping -/

/-- Lookup in an association list keyed by `Str`, first match wins
(Python dicts have unique keys, so this agrees with `dict.get`). -/
def lookupTab {α : Type} : List (Str × α) → Str → Option α
  | [], _ => none
  | (k, v) :: rest, e => if k = e then some v else lookupTab rest e

/-- Python `s.lower()` (agrees with Python on the ASCII keys used here). -/
def lowerStr (cs : Str) : Str := cs.map Char.toLower

/-- The fixed `extension_map` table of `map_extension_to_language`. -/
def extension_map : List (Str × Str) :=
  [(str ".js", str "javascript"),
   (str ".jsx", str "jsx"),
   (str ".ts", str "typescript"),
   (str ".tsx", str "tsx"),
   (str ".css", str "css"),
   (str ".scss", str "scss"),
   (str ".json", str "json"),
   (str ".md", str "markdown"),
   (str ".env", str "plaintext"),
   (str ".gitignore", str "plaintext"),
   (str ".html", str "html"),
   (str ".xml", str "xml"),
   (str ".yaml", str "yaml"),
   (str ".yml", str "yaml")]

/-- `map_extension_to_language` from the source: case-insensitive table
lookup with default `"plaintext"`. -/
def map_extension_to_language (e : Str) : Str :=
  (lookupTab extension_map (lowerStr e)).getD (str "plaintext")

/-! ## Recognised extensions and the file filter -/

/-- The `extensions` list of `consolidate_nextjs_files`. -/
def extensions : List Str :=
  [str ".js", str ".jsx", str ".ts", str ".tsx",
   str ".css", str ".scss", str ".json", str ".md"]

/-- `any(f.endswith(ext) for ext in extensions)`: case-sensitive suffix
match against the recognised extensions. -/
def matchesExt (name : Str) : Bool :=
  extensions.any (fun e => e.isSuffixOf name)

/-! ## Filesystem model and `os.walk` -/

/-- A directory: ordered file entries (name, decoded content or `none`
for content that raises `UnicodeDecodeError`) and ordered subdirectories.
The listing order models the deterministic order `os.walk` yields. -/
inductive Dir : Type where
  | node (files : List (Str × Option Str)) (subdirs : List (Str × Dir)) : Dir

/-- The immediate file entries of a directory. -/
def Dir.filesOf : Dir → List (Str × Option Str)
  | .node fs _ => fs

/-- The immediate subdirectories of a directory. -/
def Dir.subdirsOf : Dir → List (Str × Dir)
  | .node _ subs => subs

mutual

/-- `os.walk` of one directory rooted at relative path `rel`: yields
`(relative path, files)` pairs, the directory itself first, then its
subtree top-down in listing order. -/
def Dir.walk : Dir → Str → List (Str × List (Str × Option Str))
  | .node fs subs, rel => (rel, fs) :: walkSubs subs rel

/-- Walk of a subdirectory list (the recursion of `os.walk` into
`dirs`, in listing order). -/
def walkSubs : List (Str × Dir) → Str → List (Str × List (Str × Option Str))
  | [], _ => []
  | (n, d) :: rest, rel => Dir.walk d (rel ++ slash ++ n) ++ walkSubs rest rel

end

theorem Dir.walk_def (fs : List (Str × Option Str)) (subs : List (Str × Dir)) (rel : Str) :
    Dir.walk (.node fs subs) rel = (rel, fs) :: walkSubs subs rel := by
  simp [Dir.walk]

/-! ## Python `str.replace` (replaces every occurrence, left to right) -/

/-- Fuel-driven worker for `content.replace(pat, rep)`: scans left to
right, replacing non-overlapping occurrences of `pat`.  Fuel equal to
the length of the scanned text always suffices (for nonempty `pat`). -/
def replaceAllFuel : Nat → Str → Str → Str → Str
  | 0, s, _, _ => s
  | _ + 1, [], _, _ => []
  | k + 1, c :: rest, pat, rep =>
      if pat.isPrefixOf (c :: rest) then
        rep ++ replaceAllFuel k ((c :: rest).drop pat.length) pat rep
      else c :: replaceAllFuel k rest pat rep

/-- Python `s.replace(pat, rep)` for nonempty `pat`. -/
def replaceAll (s pat rep : Str) : Str := replaceAllFuel s.length s pat rep

/-! ## Small path/text helpers -/

/-- The leading line of a text: everything before the first newline. -/
def firstLine (cs : Str) : Str := cs.takeWhile (fun c => c != '\n')

/-- `os.path.basename`: the part of a path after the last `/`. -/
def basenameS (cs : Str) : Str :=
  cs.foldl (fun acc c => if c = '/' then [] else acc ++ [c]) []

/-! ## Per-file blocks of a per-folder artifact -/

/-- One matched file as it is serialized into an artifact: the relative
directory it was found in, its name, and its decoded content (`none`
models a `UnicodeDecodeError`). -/
structure Block where
  rel : Str
  name : Str
  data : Option Str
deriving DecidableEq

/-- The two comment lines opening a per-file block. -/
def blockHeader (b : Block) : Str :=
  str "// Directory: " ++ b.rel ++ str ", File: " ++ b.name ++ str "\n"
    ++ str "// File Type: " ++ (splitextExt b.name).drop 1 ++ str "\n"

/-- The fenced content of a per-file block, or the skip placeholder for
content that failed to decode. -/
def fencedBody (b : Block) : Str :=
  match b.data with
  | some content =>
      str "```" ++ map_extension_to_language (splitextExt b.name) ++ str "\n"
        ++ content ++ str "\n```\n\n"
  | none => str "// [Binary file or non-UTF-8 encoding, content skipped]\n\n"

/-- The full serialized form of one per-file block. -/
def renderBlock (b : Block) : Str := blockHeader b ++ fencedBody b

/-! ## Per-folder consolidation (the walk loop of the source) -/

/-- Running state of one folder's consolidation: artifact text written
so far, the folder's line and token counts, and the included-file count. -/
structure FAcc where
  out : Str
  lines : Nat
  tokens : Nat
  count : Nat
deriving DecidableEq

/-- The body of the per-file loop: writes the two header comment lines,
then either the fenced decoded content (counting its lines and tokens)
or the skip placeholder. -/
def writeOne (tok : Str → Nat) (rel : Str) (a : FAcc) (n : Str) (dat : Option Str) : FAcc :=
  let a1 := { a with
    out := a.out ++ str "// Directory: " ++ rel ++ str ", File: " ++ n ++ str "\n"
      ++ str "// File Type: " ++ (splitextExt n).drop 1 ++ str "\n" }
  match dat with
  | some content =>
      { a1 with
        out := a1.out ++ str "```" ++ map_extension_to_language (splitextExt n) ++ str "\n"
          ++ content ++ str "\n```\n\n",
        lines := a1.lines + numLines content,
        tokens := a1.tokens + tok content }
  | none =>
      { a1 with out := a1.out ++ str "// [Binary file or non-UTF-8 encoding, content skipped]\n\n" }

/-- The `for file_name in included_files` loop. -/
def writeFiles (tok : Str → Nat) (rel : Str) : FAcc → List (Str × Option Str) → FAcc
  | a, [] => a
  | a, (n, dat) :: rest => writeFiles tok rel (writeOne tok rel a n dat) rest

/-- `[f for f in files if any(f.endswith(ext) for ext in extensions)]`. -/
def includedFiles (files : List (Str × Option Str)) : List (Str × Option Str) :=
  files.filter (fun p => matchesExt p.1)

/-- The `for root, dirs, files in os.walk(...)` loop: per directory,
filter the files, add their number to the included-file count, skip the
write loop when nothing matched, else write each matched file. -/
def processWalk (tok : Str → Nat) : FAcc → List (Str × List (Str × Option Str)) → FAcc
  | a, [] => a
  | a, (rel, files) :: rest =>
      let included := includedFiles files
      let a1 := { a with count := a.count + included.length }
      if included.isEmpty then processWalk tok a1 rest
      else processWalk tok (writeFiles tok rel a1 included) rest

/-- The leading header comment that is later rewritten (text before the
first newline of the artifact). -/
def headerPat (f : Str) : Str :=
  str "// Consolidated files from the \"" ++ f ++ str "\" folder"

/-- The rewritten leading header comment, carrying the final count. -/
def headerRep (f : Str) (n : Nat) : Str :=
  str "// Consolidated " ++ natStr n ++ str " files from the \"" ++ f ++ str "\" folder"

/-- The rest of the artifact's two-line header (newline ending the first
line, second comment line, blank separator line). -/
def headerRest (f : Str) : Str :=
  str "\n// This file contains all code files within the \"" ++ f
    ++ str "\" folder and its subfolders.\n\n"

/-- Both header lines as first written into the artifact. -/
def headerStr (f : Str) : Str := headerPat f ++ headerRest f

/-- Result of consolidating one folder: artifact text before and after
the header rewrite, the folder's line/token counts, and its
included-file count. -/
structure FolderResult where
  pre : Str
  artifact : Str
  lines : Nat
  tokens : Nat
  count : Nat
deriving DecidableEq

/-- Consolidation of one existing folder `f` with directory tree `d`:
write the header, walk the tree writing per-file blocks, then rewrite
the header with the final count via `content.replace`. -/
def processFolder (f : Str) (d : Dir) (tok : Str → Nat) : FolderResult :=
  let a := processWalk tok ⟨headerStr f, 0, 0, 0⟩ (Dir.walk d f)
  ⟨a.out, replaceAll a.out (headerPat f) (headerRep f a.count), a.lines, a.tokens, a.count⟩

/-! ## Declarative (spec-side) view of one folder -/

/-- All matched files of a walk, as blocks, in traversal order. -/
def blocksOfWalk (ws : List (Str × List (Str × Option Str))) : List Block :=
  ws.flatMap (fun rf => (includedFiles rf.2).map (fun p => ⟨rf.1, p.1, p.2⟩))

/-- All matched files of folder `f` with tree `d`, in traversal order. -/
def matchedBlocks (f : Str) (d : Dir) : List Block := blocksOfWalk (Dir.walk d f)

/-- Declarative line total of a block list: the sum of the line counts
of the successfully decoded contents (undecodable files contribute 0). -/
def specLines (bs : List Block) : Nat :=
  ((bs.filterMap Block.data).map numLines).sum

/-- Declarative token total of a block list under tokenizer `tok`. -/
def specTokens (tok : Str → Nat) (bs : List Block) : Nat :=
  ((bs.filterMap Block.data).map tok).sum

/-! ## Source tree and folder lookup -/

/-- An entry directly under the source root: a plain file or a directory. -/
inductive FsNode : Type where
  | file (content : Option Str) : FsNode
  | dir (d : Dir) : FsNode

/-- The source root: its ordered entries by name. -/
abbrev SrcTree := List (Str × FsNode)

/-- `os.path.exists(...) and os.path.isdir(...)` for a configured folder
name: the folder's tree when it exists as a directory, else `none`. -/
def lookupDir (src : SrcTree) (f : Str) : Option Dir :=
  match lookupTab src f with
  | some (.dir d) => some d
  | _ => none

/-! ## Dictionary update (Python `dict` assignment) -/

/-- Overwrite every entry with the given key (no-op on other entries). -/
def updAll {α : Type} : List (Str × α) → Str → α → List (Str × α)
  | [], _, _ => []
  | (k0, v0) :: rest, k, v =>
      (if k0 = k then (k, v) else (k0, v0)) :: updAll rest k v

/-- Python `d[k] = v`: overwrite the entry when the key is present,
else append a new entry (insertion order preserved). -/
def dictInsert {α : Type} : List (Str × α) → Str → α → List (Str × α)
  | [], k, v => [(k, v)]
  | (k0, v0) :: rest, k, v =>
      if k0 = k then (k, v) :: updAll rest k v
      else (k0, v0) :: dictInsert rest k v

/-! ## The run: per-folder loop, then master composition -/

/-- The warning printed for a missing or non-directory folder. -/
def warnLine (srcD f : Str) : Str :=
  str "Warning: Folder \x27" ++ f ++ str "\x27 does not exist in " ++ srcD

/-- Accumulated run state over the `for main_folder in main_folders`
loop: artifact paths and contents, the folder summary dict, aggregate
totals, and warnings printed so far. -/
structure RunAcc where
  artifacts : List (Str × Str)
  summary : List (Str × Nat × Nat)
  totalLines : Nat
  totalTokens : Nat
  warnings : List Str

/-- One iteration of the main folder loop: warn and skip a missing
folder; otherwise consolidate it, record its artifact, enter it into
the folder summary and add its counts to the aggregate totals. -/
def stepFolder (src : SrcTree) (srcD outD : Str) (tok : Str → Nat) (acc : RunAcc) (f : Str) : RunAcc :=
  match lookupDir src f with
  | none => { acc with warnings := acc.warnings ++ [warnLine srcD f] }
  | some d =>
      let r := processFolder f d tok
      { artifacts := acc.artifacts ++ [(joinPath outD (f ++ str "_consolidated.txt"), r.artifact)],
        summary := dictInsert acc.summary f (r.lines, r.tokens),
        totalLines := acc.totalLines + r.lines,
        totalTokens := acc.totalTokens + r.tokens,
        warnings := acc.warnings }

/-- Manifest header of the master artifact. -/
def masterHeader (count : Nat) : Str :=
  str "// This master file consolidates " ++ natStr count
    ++ str " main folders from the src directory.\n// The following folder consolidations are included:\n"

/-- One manifest line, naming a per-folder artifact by its basename. -/
def manifestLine (p : Str) : Str := str "// - " ++ basenameS p ++ str "\n"

/-- The statistics comment block of the master artifact. -/
def statsBlock (tl tt : Nat) : Str :=
  str "// Project Statistics:\n// - Total lines of code: " ++ natStr tl
    ++ str "\n// - Total tokens: " ++ natStr tt ++ str "\n\n"

/-- One per-folder section of the master artifact: start marker, the
artifact's raw content, end marker.  The folder name is recovered from
the artifact basename by `str.replace` of the `_consolidated.txt`
suffix with the empty string, as in the source. -/
def folderSection (p content : Str) : Str :=
  str "// ===== Start of " ++ replaceAll (basenameS p) (str "_consolidated.txt") []
    ++ str " folder =====\n\n" ++ content
    ++ str "\n// ===== End of " ++ replaceAll (basenameS p) (str "_consolidated.txt") []
    ++ str " folder =====\n\n"

/-- The master artifact composed from the recorded per-folder artifacts
and the aggregate totals, by pure concatenation. -/
def renderMaster (cfs : List (Str × Str)) (tl tt : Nat) : Str :=
  masterHeader cfs.length
    ++ (cfs.map (fun cf => manifestLine cf.1)).flatten
    ++ str "\n"
    ++ statsBlock tl tt
    ++ (cfs.map (fun cf => folderSection cf.1 cf.2)).flatten

/-- Observable result of one full run of `consolidate_nextjs_files`. -/
structure RunResult where
  artifacts : List (Str × Str)
  summary : List (Str × Nat × Nat)
  totalLines : Nat
  totalTokens : Nat
  warnings : List Str
  master : Str

/-- The whole run of `consolidate_nextjs_files`: process each configured
folder in order, then compose the master artifact. -/
def consolidate_nextjs_files (src : SrcTree) (srcD outD : Str) (folders : List Str)
    (tok : Str → Nat) : RunResult :=
  let a := folders.foldl (stepFolder src srcD outD tok) ⟨[], [], 0, 0, []⟩
  ⟨a.artifacts, a.summary, a.totalLines, a.totalTokens, a.warnings,
    renderMaster a.artifacts a.totalLines a.totalTokens⟩

/-- The default `main_folders` configuration. -/
def main_folders_default : List Str :=
  [str "app", str "components", str "context", str "lib", str "scripts", str "types"]

/-! ## Filesystem writes of a run (for idempotence) -/

/-- An output directory state: file names with their contents, in
creation order (real directories have pairwise distinct names). -/
abbrev OutState := List (Str × Str)

/-- One `open(path, "w")` write: overwrite or create. -/
def setFile (st : OutState) (p c : Str) : OutState := dictInsert st p c

/-- Apply a list of writes in order. -/
def applyWrites (st : OutState) (ws : List (Str × Str)) : OutState :=
  ws.foldl (fun s w => setFile s w.1 w.2) st

/-- Every file write a run performs, in order: for each processed folder
the first-pass artifact text then its header-rewritten text, finally the
master artifact. -/
def runWrites (src : SrcTree) (srcD outD : Str) (folders : List Str) (tok : Str → Nat) :
    List (Str × Str) :=
  (folders.filterMap (fun f => (lookupDir src f).map (fun d => (f, d)))).flatMap
    (fun fd =>
      let r := processFolder fd.1 fd.2 tok
      let p := joinPath outD (fd.1 ++ str "_consolidated.txt")
      [(p, r.pre), (p, r.artifact)])
  ++ [(joinPath outD (str "master_consolidated.txt"),
        (consolidate_nextjs_files src srcD outD folders tok).master)]

/-! ## Spec-side view of the run -/

/-- The configured folders that exist as directories, in configured order. -/
def processedFolders (src : SrcTree) (folders : List Str) : List Str :=
  folders.filter (fun f => (lookupDir src f).isSome)

/-- Declarative line count of one configured folder (0 when skipped). -/
def specLinesOf (src : SrcTree) (f : Str) : Nat :=
  match lookupDir src f with
  | some d => specLines (matchedBlocks f d)
  | none => 0

/-- Declarative token count of one configured folder (0 when skipped). -/
def specTokensOf (src : SrcTree) (tok : Str → Nat) (f : Str) : Nat :=
  match lookupDir src f with
  | some d => specTokens tok (matchedBlocks f d)
  | none => 0

/-- The rewritten artifact text of one configured folder ([] when skipped). -/
def specArtifactOf (src : SrcTree) (tok : Str → Nat) (f : Str) : Str :=
  match lookupDir src f with
  | some d => (processFolder f d tok).artifact
  | none => []

/-- The master artifact as the specification describes it, built
directly from the processed folders in configured order: a manifest
naming each per-folder artifact, statistics equal to the independently
computed totals, and each artifact's raw content between start/end
markers naming its folder. -/
def masterSpec (src : SrcTree) (folders : List Str) (tok : Str → Nat) : Str :=
  masterHeader (processedFolders src folders).length
    ++ ((processedFolders src folders).map
        (fun f => str "// - " ++ f ++ str "_consolidated.txt\n")).flatten
    ++ str "\n"
    ++ statsBlock (((processedFolders src folders).map (specLinesOf src)).sum)
        (((processedFolders src folders).map (specTokensOf src tok)).sum)
    ++ ((processedFolders src folders).map
        (fun f =>
          str "// ===== Start of " ++ f ++ str " folder =====\n\n" ++ specArtifactOf src tok f
            ++ str "\n// ===== End of " ++ f ++ str " folder =====\n\n")).flatten

/-! ## Lemmas about `replaceAll` -/

theorem replaceAllFuel_congr : ∀ (k₁ : Nat) (s : Str) (k₂ : Nat) (pat rep : Str),
    pat ≠ [] → s.length ≤ k₁ → s.length ≤ k₂ →
    replaceAllFuel k₁ s pat rep = replaceAllFuel k₂ s pat rep := by
  intro k₁
  induction k₁ using Nat.strong_induction_on with
  | _ k₁ ih =>
    intro s k₂ pat rep hp h₁ h₂
    match k₁, s with
    | 0, s =>
      have hs : s = [] := by
        cases s with
        | nil => rfl
        | cons c t => simp at h₁
      subst hs
      cases k₂ <;> simp [replaceAllFuel]
    | k + 1, [] => cases k₂ <;> simp [replaceAllFuel]
    | k + 1, c :: rest =>
      match k₂ with
      | 0 => simp at h₂
      | k₂ + 1 =>
        have hplen : 1 ≤ pat.length := by
          cases pat with
          | nil => exact absurd rfl hp
          | cons a b => simp
        have hlen1 : (c :: rest).length = rest.length + 1 := by simp
        rw [hlen1] at h₁ h₂
        simp only [replaceAllFuel]
        by_cases hpre : pat.isPrefixOf (c :: rest)
        · rw [if_pos hpre, if_pos hpre]
          have hd : (List.drop pat.length (c :: rest)).length ≤ k := by
            rw [List.length_drop, hlen1]
            omega
          have hd2 : (List.drop pat.length (c :: rest)).length ≤ k₂ := by
            rw [List.length_drop, hlen1]
            omega
          rw [ih k (by omega) _ k₂ pat rep hp hd hd2]
        · rw [if_neg hpre, if_neg hpre]
          have hr : rest.length ≤ k := by omega
          have hr2 : rest.length ≤ k₂ := by omega
          rw [ih k (by omega) rest k₂ pat rep hp hr hr2]

theorem replaceAll_nil (pat rep : Str) : replaceAll [] pat rep = [] := rfl

theorem replaceAll_head (pat t rep : Str) (hp : pat ≠ []) :
    replaceAll (pat ++ t) pat rep = rep ++ replaceAll t pat rep := by
  obtain ⟨p0, pt, rfl⟩ : ∃ p0 pt, pat = p0 :: pt := by
    cases pat with
    | nil => exact absurd rfl hp
    | cons a b => exact ⟨a, b, rfl⟩
  show replaceAllFuel ((p0 :: pt) ++ t).length (p0 :: (pt ++ t)) _ _ = _
  have hlen : ((p0 :: pt) ++ t).length = (pt ++ t).length + 1 := by simp
  rw [hlen]
  simp only [replaceAllFuel]
  have hpre : (p0 :: pt).isPrefixOf (p0 :: (pt ++ t)) = true := by
    rw [List.isPrefixOf_iff_prefix]
    exact ⟨t, rfl⟩
  simp only [hpre, if_true]
  have hdrop : (p0 :: (pt ++ t)).drop (p0 :: pt).length = t := by
    have : (p0 :: (pt ++ t)) = (p0 :: pt) ++ t := by simp
    rw [this, List.drop_left]
  rw [hdrop]
  congr 1
  exact replaceAllFuel_congr _ t _ _ _ hp (by simp) (le_refl _)

theorem replaceAll_miss (c : Char) (t pat rep : Str) (h : ¬ pat <+: (c :: t)) :
    replaceAll (c :: t) pat rep = c :: replaceAll t pat rep := by
  show replaceAllFuel (t.length + 1) (c :: t) _ _ = _
  simp only [replaceAllFuel]
  have hpre : pat.isPrefixOf (c :: t) = false := by
    rw [Bool.eq_false_iff]
    intro hc
    exact h (List.isPrefixOf_iff_prefix.mp hc)
  simp only [hpre, if_false]
  rfl

theorem replaceAll_no_occur : ∀ (t pat rep : Str), ¬ pat <:+: t → replaceAll t pat rep = t := by
  intro t
  induction t with
  | nil => intro pat rep _; rfl
  | cons c t ih =>
    intro pat rep h
    have hnp : ¬ pat <+: (c :: t) := fun hc => h hc.isInfix
    rw [replaceAll_miss c t pat rep hnp, ih pat rep]
    intro ⟨s, u, hu⟩
    exact h ⟨c :: s, u, by simp [hu]⟩

theorem replaceAll_strip : ∀ (xs : Str) (p0 : Char) (pt rep : Str), p0 ∉ xs →
    replaceAll (xs ++ (p0 :: pt)) (p0 :: pt) rep = xs ++ rep := by
  intro xs
  induction xs with
  | nil =>
    intro p0 pt rep _
    have h2 := replaceAll_head (p0 :: pt) [] rep (by simp)
    rw [List.append_nil, replaceAll_nil] at h2
    simpa using h2
  | cons c xs ih =>
    intro p0 pt rep h
    have hc : p0 ≠ c := fun hc => h (hc ▸ List.mem_cons_self c xs)
    have hnp : ¬ (p0 :: pt) <+: (c :: (xs ++ (p0 :: pt))) := by
      intro hp
      rw [List.cons_prefix_cons] at hp
      exact hc hp.1
    rw [show (c :: xs) ++ (p0 :: pt) = c :: (xs ++ (p0 :: pt)) by simp,
        replaceAll_miss _ _ _ _ hnp, ih p0 pt rep (fun hm => h (List.mem_cons_of_mem c hm))]
    simp

/-! ## Lemmas about `firstLine`, digits, `basenameS` -/

theorem firstLine_append (a b : Str) (h : '\n' ∉ a) :
    firstLine (a ++ '\n' :: b) = a := by
  induction a with
  | nil => simp [firstLine]
  | cons c a ih =>
    have hc : c ≠ '\n' := fun hc => h (hc ▸ List.mem_cons_self c a)
    have ha : '\n' ∉ a := fun hm => h (List.mem_cons_of_mem c hm)
    simp only [List.cons_append, firstLine, List.takeWhile_cons]
    have : (c != '\n') = true := by simpa using hc
    rw [this]
    simpa [firstLine] using ih ha

theorem digitChar_ne_newline : ∀ m, digitChar m ≠ '\n' := by
  intro m
  unfold digitChar
  split <;> decide

theorem natStrGo_no_newline : ∀ (fuel n : Nat), '\n' ∉ natStrGo fuel n := by
  intro fuel
  induction fuel with
  | zero => intro n; simp [natStrGo]
  | succ k ih =>
    intro n
    simp only [natStrGo]
    by_cases hn : n < 10
    · simp only [hn, if_true]
      intro hm
      rcases List.mem_singleton.mp hm with h
      exact digitChar_ne_newline n h.symm
    · simp only [hn, if_false]
      intro hm
      rcases List.mem_append.mp hm with h | h
      · exact ih (n / 10) h
      · rcases List.mem_singleton.mp h with h2
        exact digitChar_ne_newline (n % 10) h2.symm

theorem natStr_no_newline (n : Nat) : '\n' ∉ natStr n := natStrGo_no_newline (n + 1) n

theorem basename_go_noslash : ∀ (cs : Str) (acc : Str), '/' ∉ cs →
    cs.foldl (fun a c => if c = '/' then [] else a ++ [c]) acc = acc ++ cs := by
  intro cs
  induction cs with
  | nil => intro acc _; simp
  | cons c cs ih =>
    intro acc h
    have hc : c ≠ '/' := fun hc => h (hc ▸ List.mem_cons_self c cs)
    simp only [List.foldl_cons, hc, if_false]
    rw [ih (acc ++ [c]) (fun hm => h (List.mem_cons_of_mem c hm))]
    simp

theorem basename_after_slash (xs ys : Str) : basenameS (xs ++ '/' :: ys) = basenameS ys := by
  simp [basenameS, List.foldl_append]

theorem basename_noslash (xs : Str) (h : '/' ∉ xs) : basenameS xs = xs := by
  simpa using basename_go_noslash xs [] h

/-! ## Refinement: the walk loop computes the declarative view -/

/-- Line contribution of one block (0 for undecodable content). -/
def blockLines (b : Block) : Nat :=
  match b.data with
  | some c => numLines c
  | none => 0

/-- Token contribution of one block (0 for undecodable content). -/
def blockTokens (tok : Str → Nat) (b : Block) : Nat :=
  match b.data with
  | some c => tok c
  | none => 0

theorem specLines_eq_sum (bs : List Block) : specLines bs = (bs.map blockLines).sum := by
  induction bs with
  | nil => rfl
  | cons b bs ih =>
    cases hb : b.data with
    | none => simp [specLines, blockLines, List.filterMap_cons, hb] at ih ⊢; exact ih
    | some c => simp [specLines, blockLines, List.filterMap_cons, hb] at ih ⊢; exact ih

theorem specTokens_eq_sum (tok : Str → Nat) (bs : List Block) :
    specTokens tok bs = (bs.map (blockTokens tok)).sum := by
  induction bs with
  | nil => rfl
  | cons b bs ih =>
    cases hb : b.data with
    | none => simp [specTokens, blockTokens, List.filterMap_cons, hb] at ih ⊢; exact ih
    | some c => simp [specTokens, blockTokens, List.filterMap_cons, hb] at ih ⊢; exact ih

theorem writeOne_spec (tok : Str → Nat) (rel : Str) (a : FAcc) (n : Str) (dat : Option Str) :
    (writeOne tok rel a n dat).out = a.out ++ renderBlock ⟨rel, n, dat⟩
    ∧ (writeOne tok rel a n dat).lines = a.lines + blockLines ⟨rel, n, dat⟩
    ∧ (writeOne tok rel a n dat).tokens = a.tokens + blockTokens tok ⟨rel, n, dat⟩
    ∧ (writeOne tok rel a n dat).count = a.count := by
  cases dat with
  | none => simp [writeOne, renderBlock, blockHeader, fencedBody, blockLines, blockTokens]
  | some c => simp [writeOne, renderBlock, blockHeader, fencedBody, blockLines, blockTokens]

theorem writeFiles_spec (tok : Str → Nat) (rel : Str) :
    ∀ (fs : List (Str × Option Str)) (a : FAcc),
    (writeFiles tok rel a fs).out = a.out ++ fs.flatMap (fun p => renderBlock ⟨rel, p.1, p.2⟩)
    ∧ (writeFiles tok rel a fs).lines = a.lines + (fs.map (fun p => blockLines ⟨rel, p.1, p.2⟩)).sum
    ∧ (writeFiles tok rel a fs).tokens = a.tokens + (fs.map (fun p => blockTokens tok ⟨rel, p.1, p.2⟩)).sum
    ∧ (writeFiles tok rel a fs).count = a.count := by
  intro fs
  induction fs with
  | nil => intro a; simp [writeFiles]
  | cons p rest ih =>
    intro a
    obtain ⟨n, dat⟩ := p
    obtain ⟨ho, hl, ht, hc⟩ := writeOne_spec tok rel a n dat
    obtain ⟨iho, ihl, iht, ihc⟩ := ih (writeOne tok rel a n dat)
    refine ⟨?_, ?_, ?_, ?_⟩
    · rw [show writeFiles tok rel a ((n, dat) :: rest) = writeFiles tok rel (writeOne tok rel a n dat) rest from rfl,
        iho, ho]
      simp
    · rw [show writeFiles tok rel a ((n, dat) :: rest) = writeFiles tok rel (writeOne tok rel a n dat) rest from rfl,
        ihl, hl]
      simp [Nat.add_assoc]
    · rw [show writeFiles tok rel a ((n, dat) :: rest) = writeFiles tok rel (writeOne tok rel a n dat) rest from rfl,
        iht, ht]
      simp [Nat.add_assoc]
    · rw [show writeFiles tok rel a ((n, dat) :: rest) = writeFiles tok rel (writeOne tok rel a n dat) rest from rfl,
        ihc, hc]

theorem blocksOfWalk_cons (rel : Str) (files : List (Str × Option Str))
    (rest : List (Str × List (Str × Option Str))) :
    blocksOfWalk ((rel, files) :: rest) =
      (includedFiles files).map (fun p => ⟨rel, p.1, p.2⟩) ++ blocksOfWalk rest := by
  simp [blocksOfWalk]

theorem processWalk_spec (tok : Str → Nat) :
    ∀ (ws : List (Str × List (Str × Option Str))) (a : FAcc),
    (processWalk tok a ws).out = a.out ++ (blocksOfWalk ws).flatMap renderBlock
    ∧ (processWalk tok a ws).count = a.count + (blocksOfWalk ws).length
    ∧ (processWalk tok a ws).lines = a.lines + ((blocksOfWalk ws).map blockLines).sum
    ∧ (processWalk tok a ws).tokens = a.tokens + ((blocksOfWalk ws).map (blockTokens tok)).sum := by
  intro ws
  induction ws with
  | nil => intro a; simp [processWalk, blocksOfWalk]
  | cons rf rest ih =>
    intro a
    obtain ⟨rel, files⟩ := rf
    rw [blocksOfWalk_cons]
    by_cases hemp : (includedFiles files).isEmpty
    · have hnil : includedFiles files = [] := List.isEmpty_iff.mp hemp
      have hstep : processWalk tok a ((rel, files) :: rest) =
          processWalk tok { a with count := a.count + (includedFiles files).length } rest := by
        simp only [processWalk]
        rw [if_pos hemp]
      obtain ⟨iho, ihc, ihl, iht⟩ := ih { a with count := a.count + (includedFiles files).length }
      rw [hstep]
      refine ⟨?_, ?_, ?_, ?_⟩
      · rw [iho]; simp [hnil]
      · rw [ihc]; simp [hnil, Nat.add_assoc]
      · rw [ihl]; simp [hnil]
      · rw [iht]; simp [hnil]
    · have hstep : processWalk tok a ((rel, files) :: rest) =
          processWalk tok
            (writeFiles tok rel { a with count := a.count + (includedFiles files).length }
              (includedFiles files)) rest := by
        simp only [processWalk]
        rw [if_neg hemp]
      obtain ⟨wo, wl, wt, wc⟩ :=
        writeFiles_spec tok rel (includedFiles files)
          { a with count := a.count + (includedFiles files).length }
      obtain ⟨iho, ihc, ihl, iht⟩ :=
        ih (writeFiles tok rel { a with count := a.count + (includedFiles files).length }
          (includedFiles files))
      rw [hstep]
      refine ⟨?_, ?_, ?_, ?_⟩
      · rw [iho, wo]
        simp [List.flatMap_append]
        rw [List.flatMap_map]
      · rw [ihc, wc]
        simp [Nat.add_assoc]
      · rw [ihl, wl]
        simp only [List.map_append, List.sum_append, List.map_map]
        simp [Nat.add_assoc]
        rfl
      · rw [iht, wt]
        simp only [List.map_append, List.sum_append, List.map_map]
        simp [Nat.add_assoc]
        rfl

theorem processFolder_spec (f : Str) (d : Dir) (tok : Str → Nat) :
    (processFolder f d tok).pre = headerStr f ++ (matchedBlocks f d).flatMap renderBlock
    ∧ (processFolder f d tok).count = (matchedBlocks f d).length
    ∧ (processFolder f d tok).lines = specLines (matchedBlocks f d)
    ∧ (processFolder f d tok).tokens = specTokens tok (matchedBlocks f d)
    ∧ (processFolder f d tok).artifact =
        replaceAll ((processFolder f d tok).pre) (headerPat f)
          (headerRep f (matchedBlocks f d).length) := by
  obtain ⟨ho, hc, hl, ht⟩ := processWalk_spec tok (Dir.walk d f) ⟨headerStr f, 0, 0, 0⟩
  have hb : blocksOfWalk (Dir.walk d f) = matchedBlocks f d := rfl
  rw [hb] at ho hc hl ht
  have hc2 : (processWalk tok ⟨headerStr f, 0, 0, 0⟩ (Dir.walk d f)).count = (matchedBlocks f d).length := by
    rw [hc]; simp
  refine ⟨?_, ?_, ?_, ?_, ?_⟩
  · show (processWalk tok ⟨headerStr f, 0, 0, 0⟩ (Dir.walk d f)).out = _
    rw [ho]
  · exact hc2
  · show (processWalk tok ⟨headerStr f, 0, 0, 0⟩ (Dir.walk d f)).lines = _
    rw [hl, specLines_eq_sum]; simp
  · show (processWalk tok ⟨headerStr f, 0, 0, 0⟩ (Dir.walk d f)).tokens = _
    rw [ht, specTokens_eq_sum]; simp
  · show replaceAll (processWalk tok ⟨headerStr f, 0, 0, 0⟩ (Dir.walk d f)).out (headerPat f)
        (headerRep f ((processWalk tok ⟨headerStr f, 0, 0, 0⟩ (Dir.walk d f)).count)) = _
    rw [hc2]
    rfl

/-! ## Componentwise view of the main folder loop -/

/-- Artifact-list component of one loop iteration. -/
def stepArt (src : SrcTree) (outD : Str) (tok : Str → Nat) (as : List (Str × Str)) (f : Str) :
    List (Str × Str) :=
  match lookupDir src f with
  | some d => as ++ [(joinPath outD (f ++ str "_consolidated.txt"), (processFolder f d tok).artifact)]
  | none => as

/-- Folder-summary component of one loop iteration. -/
def stepSum (src : SrcTree) (tok : Str → Nat) (s : List (Str × Nat × Nat)) (f : Str) :
    List (Str × Nat × Nat) :=
  match lookupDir src f with
  | some d => dictInsert s f ((processFolder f d tok).lines, (processFolder f d tok).tokens)
  | none => s

/-- Total-lines component of one loop iteration. -/
def stepTL (src : SrcTree) (tok : Str → Nat) (n : Nat) (f : Str) : Nat :=
  match lookupDir src f with
  | some d => n + (processFolder f d tok).lines
  | none => n

/-- Total-tokens component of one loop iteration. -/
def stepTT (src : SrcTree) (tok : Str → Nat) (n : Nat) (f : Str) : Nat :=
  match lookupDir src f with
  | some d => n + (processFolder f d tok).tokens
  | none => n

/-- Warnings component of one loop iteration. -/
def stepWarn (src : SrcTree) (srcD : Str) (ws : List Str) (f : Str) : List Str :=
  match lookupDir src f with
  | some _ => ws
  | none => ws ++ [warnLine srcD f]

theorem run_decomp (src : SrcTree) (srcD outD : Str) (tok : Str → Nat) :
    ∀ (folders : List Str) (acc : RunAcc),
    folders.foldl (stepFolder src srcD outD tok) acc =
      ⟨folders.foldl (stepArt src outD tok) acc.artifacts,
       folders.foldl (stepSum src tok) acc.summary,
       folders.foldl (stepTL src tok) acc.totalLines,
       folders.foldl (stepTT src tok) acc.totalTokens,
       folders.foldl (stepWarn src srcD) acc.warnings⟩ := by
  intro folders
  induction folders with
  | nil => intro acc; rfl
  | cons f rest ih =>
    intro acc
    have hstep : stepFolder src srcD outD tok acc f =
        ⟨stepArt src outD tok acc.artifacts f, stepSum src tok acc.summary f,
         stepTL src tok acc.totalLines f, stepTT src tok acc.totalTokens f,
         stepWarn src srcD acc.warnings f⟩ := by
      cases hd : lookupDir src f with
      | none => simp [stepFolder, stepArt, stepSum, stepTL, stepTT, stepWarn, hd]
      | some d => simp [stepFolder, stepArt, stepSum, stepTL, stepTT, stepWarn, hd]
    rw [List.foldl_cons, hstep, ih]
    rfl

/-- One manifest/artifact entry of the spec-side view. -/
def artEntry (src : SrcTree) (outD : Str) (tok : Str → Nat) (f : Str) : Str × Str :=
  (joinPath outD (f ++ str "_consolidated.txt"), specArtifactOf src tok f)

theorem foldArt_closed (src : SrcTree) (outD : Str) (tok : Str → Nat) :
    ∀ (folders : List Str) (as : List (Str × Str)),
    folders.foldl (stepArt src outD tok) as = as ++ (processedFolders src folders).map (artEntry src outD tok) := by
  intro folders
  induction folders with
  | nil => intro as; simp [processedFolders]
  | cons f rest ih =>
    intro as
    cases hd : lookupDir src f with
    | none =>
      rw [List.foldl_cons]
      have h1 : stepArt src outD tok as f = as := by simp [stepArt, hd]
      rw [h1, ih]
      simp [processedFolders, List.filter_cons, hd]
    | some d =>
      rw [List.foldl_cons]
      have h1 : stepArt src outD tok as f =
          as ++ [(joinPath outD (f ++ str "_consolidated.txt"), (processFolder f d tok).artifact)] := by
        simp [stepArt, hd]
      rw [h1, ih]
      have h2 : processedFolders src (f :: rest) = f :: processedFolders src rest := by
        simp [processedFolders, List.filter_cons, hd]
      rw [h2]
      simp [artEntry, specArtifactOf, hd]

theorem foldTL_closed (src : SrcTree) (tok : Str → Nat) :
    ∀ (folders : List Str) (n : Nat),
    folders.foldl (stepTL src tok) n = n + ((processedFolders src folders).map (specLinesOf src)).sum := by
  intro folders
  induction folders with
  | nil => intro n; simp [processedFolders]
  | cons f rest ih =>
    intro n
    cases hd : lookupDir src f with
    | none =>
      rw [List.foldl_cons]
      have h1 : stepTL src tok n f = n := by simp [stepTL, hd]
      rw [h1, ih]
      simp [processedFolders, List.filter_cons, hd]
    | some d =>
      rw [List.foldl_cons]
      have h1 : stepTL src tok n f = n + (processFolder f d tok).lines := by simp [stepTL, hd]
      have h2 : processedFolders src (f :: rest) = f :: processedFolders src rest := by
        simp [processedFolders, List.filter_cons, hd]
      rw [h1, ih, h2]
      have h3 : specLinesOf src f = (processFolder f d tok).lines := by
        simp [specLinesOf, hd, (processFolder_spec f d tok).2.2.1]
      simp [h3, Nat.add_assoc]

theorem foldTT_closed (src : SrcTree) (tok : Str → Nat) :
    ∀ (folders : List Str) (n : Nat),
    folders.foldl (stepTT src tok) n = n + ((processedFolders src folders).map (specTokensOf src tok)).sum := by
  intro folders
  induction folders with
  | nil => intro n; simp [processedFolders]
  | cons f rest ih =>
    intro n
    cases hd : lookupDir src f with
    | none =>
      rw [List.foldl_cons]
      have h1 : stepTT src tok n f = n := by simp [stepTT, hd]
      rw [h1, ih]
      simp [processedFolders, List.filter_cons, hd]
    | some d =>
      rw [List.foldl_cons]
      have h1 : stepTT src tok n f = n + (processFolder f d tok).tokens := by simp [stepTT, hd]
      have h2 : processedFolders src (f :: rest) = f :: processedFolders src rest := by
        simp [processedFolders, List.filter_cons, hd]
      rw [h1, ih, h2]
      have h3 : specTokensOf src tok f = (processFolder f d tok).tokens := by
        simp [specTokensOf, hd, (processFolder_spec f d tok).2.2.2.1]
      simp [h3, Nat.add_assoc]

theorem foldWarn_closed (src : SrcTree) (srcD : Str) :
    ∀ (folders : List Str) (ws : List Str),
    folders.foldl (stepWarn src srcD) ws =
      ws ++ (folders.filter (fun f => (lookupDir src f).isNone)).map (warnLine srcD) := by
  intro folders
  induction folders with
  | nil => intro ws; simp
  | cons f rest ih =>
    intro ws
    cases hd : lookupDir src f with
    | none =>
      rw [List.foldl_cons]
      have h1 : stepWarn src srcD ws f = ws ++ [warnLine srcD f] := by simp [stepWarn, hd]
      rw [h1, ih]
      simp [List.filter_cons, hd]
    | some d =>
      rw [List.foldl_cons]
      have h1 : stepWarn src srcD ws f = ws := by simp [stepWarn, hd]
      rw [h1, ih]
      simp [List.filter_cons, hd]

/-! ## Lemmas about `dictInsert` and the folder summary -/

theorem dictInsert_fresh {α : Type} : ∀ (s : List (Str × α)) (k : Str) (v : α),
    (∀ e ∈ s, e.1 ≠ k) → dictInsert s k v = s ++ [(k, v)] := by
  intro s
  induction s with
  | nil => intro k v _; rfl
  | cons e rest ih =>
    intro k v h
    obtain ⟨k0, v0⟩ := e
    have hk : k0 ≠ k := h (k0, v0) (List.mem_cons_self _ _)
    simp only [dictInsert, if_neg hk]
    rw [ih k v (fun e he => h e (List.mem_cons_of_mem _ he))]
    simp

theorem updAll_mem {α : Type} (v : Str → α) : ∀ (s : List (Str × α)) (g f : Str),
    (f, v f) ∈ s → (f, v f) ∈ updAll s g (v g) := by
  intro s
  induction s with
  | nil => intro g f h; simp at h
  | cons e rest ih =>
    intro g f h
    obtain ⟨k0, v0⟩ := e
    simp only [updAll]
    rcases List.mem_cons.mp h with h1 | h1
    · injection h1 with h1a h1b
      subst h1a
      by_cases hg : f = g
      · rw [if_pos hg, hg]
        exact List.mem_cons_self _ _
      · rw [if_neg hg, ← h1b]
        exact List.mem_cons_self _ _
    · by_cases hg : k0 = g
      · rw [if_pos hg]
        exact List.mem_cons_of_mem _ (ih g f h1)
      · rw [if_neg hg]
        exact List.mem_cons_of_mem _ (ih g f h1)

theorem dictInsert_mem {α : Type} (v : Str → α) : ∀ (s : List (Str × α)) (g f : Str),
    ((f, v f) ∈ s ∨ f = g) → (f, v f) ∈ dictInsert s g (v g) := by
  intro s
  induction s with
  | nil =>
    intro g f h
    rcases h with h | h
    · simp at h
    · subst h
      simp [dictInsert]
  | cons e rest ih =>
    intro g f h
    obtain ⟨k0, v0⟩ := e
    simp only [dictInsert]
    rcases h with h1 | h1
    · rcases List.mem_cons.mp h1 with h2 | h2
      · injection h2 with h2a h2b
        subst h2a
        by_cases hg : f = g
        · rw [if_pos hg, hg]
          exact List.mem_cons_self _ _
        · rw [if_neg hg, ← h2b]
          exact List.mem_cons_self _ _
      · by_cases hg : k0 = g
        · rw [if_pos hg]
          exact List.mem_cons_of_mem _ (updAll_mem v rest g f h2)
        · rw [if_neg hg]
          exact List.mem_cons_of_mem _ (ih g f (Or.inl h2))
    · subst h1
      by_cases hg : k0 = f
      · rw [if_pos hg]
        exact List.mem_cons_self _ _
      · rw [if_neg hg]
        exact List.mem_cons_of_mem _ (ih f f (Or.inr rfl))

theorem updAll_keys {α : Type} : ∀ (s : List (Str × α)) (k : Str) (v : α),
    (updAll s k v).map Prod.fst = s.map Prod.fst := by
  intro s
  induction s with
  | nil => intro k v; rfl
  | cons e rest ih =>
    intro k v
    obtain ⟨k0, v0⟩ := e
    simp only [updAll]
    by_cases hg : k0 = k
    · rw [if_pos hg]
      simp [ih, hg]
    · rw [if_neg hg]
      simp [ih]

theorem dictInsert_keymem {α : Type} : ∀ (s : List (Str × α)) (k : Str) (v : α) (key : Str),
    key ∈ (dictInsert s k v).map Prod.fst → key ∈ s.map Prod.fst ∨ key = k := by
  intro s
  induction s with
  | nil =>
    intro k v key h
    simp [dictInsert] at h
    exact Or.inr h
  | cons e rest ih =>
    intro k v key h
    obtain ⟨k0, v0⟩ := e
    simp only [dictInsert] at h
    by_cases hg : k0 = k
    · rw [if_pos hg] at h
      simp only [List.map_cons, updAll_keys] at h
      rcases List.mem_cons.mp h with h1 | h1
      · exact Or.inr h1
      · exact Or.inl (by simp only [List.map_cons]; exact List.mem_cons.mpr (Or.inr h1))
    · rw [if_neg hg] at h
      simp only [List.map_cons] at h
      rcases List.mem_cons.mp h with h1 | h1
      · exact Or.inl (by simp only [List.map_cons]; exact List.mem_cons.mpr (Or.inl h1))
      · rcases ih k v key h1 with h2 | h2
        · exact Or.inl (by simp only [List.map_cons]; exact List.mem_cons.mpr (Or.inr h2))
        · exact Or.inr h2

/-- The folder-summary value the run stores for a processed folder. -/
def folderVal (src : SrcTree) (tok : Str → Nat) (f : Str) : Nat × Nat :=
  (specLinesOf src f, specTokensOf src tok f)

theorem stepSum_eq_of_dir (src : SrcTree) (tok : Str → Nat) (s : List (Str × Nat × Nat))
    (f : Str) (d : Dir) (hd : lookupDir src f = some d) :
    stepSum src tok s f = dictInsert s f (folderVal src tok f) := by
  have hl : specLinesOf src f = (processFolder f d tok).lines := by
    simp [specLinesOf, hd, (processFolder_spec f d tok).2.2.1]
  have ht : specTokensOf src tok f = (processFolder f d tok).tokens := by
    simp [specTokensOf, hd, (processFolder_spec f d tok).2.2.2.1]
  simp [stepSum, hd, folderVal, hl, ht]

theorem foldSum_preserve (src : SrcTree) (tok : Str → Nat) :
    ∀ (folders : List Str) (s : List (Str × Nat × Nat)) (f : Str),
    (f, folderVal src tok f) ∈ s →
    (f, folderVal src tok f) ∈ folders.foldl (stepSum src tok) s := by
  intro folders
  induction folders with
  | nil => intro s f h; exact h
  | cons g rest ih =>
    intro s f h
    rw [List.foldl_cons]
    apply ih
    cases hd : lookupDir src g with
    | none => simpa [stepSum, hd] using h
    | some d =>
      rw [stepSum_eq_of_dir src tok s g d hd]
      exact dictInsert_mem (folderVal src tok) s g f (Or.inl h)

theorem foldSum_mem (src : SrcTree) (tok : Str → Nat) :
    ∀ (folders : List Str) (s : List (Str × Nat × Nat)) (f : Str),
    f ∈ folders → (lookupDir src f).isSome →
    (f, folderVal src tok f) ∈ folders.foldl (stepSum src tok) s := by
  intro folders
  induction folders with
  | nil => intro s f h _; simp at h
  | cons g rest ih =>
    intro s f hmem hsome
    rw [List.foldl_cons]
    rcases List.mem_cons.mp hmem with h1 | h1
    · subst h1
      obtain ⟨d, hd⟩ := Option.isSome_iff_exists.mp hsome
      apply foldSum_preserve
      rw [stepSum_eq_of_dir src tok s f d hd]
      exact dictInsert_mem (folderVal src tok) s f f (Or.inr rfl)
    · exact ih _ f h1 hsome

theorem foldSum_keys (src : SrcTree) (tok : Str → Nat) :
    ∀ (folders : List Str) (s : List (Str × Nat × Nat)) (key : Str),
    key ∈ (folders.foldl (stepSum src tok) s).map Prod.fst →
    key ∈ s.map Prod.fst ∨ (key ∈ folders ∧ (lookupDir src key).isSome) := by
  intro folders
  induction folders with
  | nil => intro s key h; exact Or.inl h
  | cons g rest ih =>
    intro s key h
    rw [List.foldl_cons] at h
    rcases ih _ key h with h1 | h1
    · cases hd : lookupDir src g with
      | none =>
        rw [show stepSum src tok s g = s by simp [stepSum, hd]] at h1
        exact Or.inl h1
      | some d =>
        rw [show stepSum src tok s g =
            dictInsert s g ((processFolder g d tok).lines, (processFolder g d tok).tokens)
          by simp [stepSum, hd]] at h1
        rcases dictInsert_keymem s g _ key h1 with h2 | h2
        · exact Or.inl h2
        · subst h2
          exact Or.inr ⟨List.mem_cons_self _ _, by simp [hd]⟩
    · exact Or.inr ⟨List.mem_cons_of_mem _ h1.1, h1.2⟩

theorem foldSum_closed (src : SrcTree) (tok : Str → Nat) :
    ∀ (folders : List Str) (s : List (Str × Nat × Nat)),
    folders.Nodup → (∀ f ∈ folders, ∀ key ∈ s.map Prod.fst, key ≠ f) →
    folders.foldl (stepSum src tok) s =
      s ++ (processedFolders src folders).map (fun f => (f, folderVal src tok f)) := by
  intro folders
  induction folders with
  | nil => intro s _ _; simp [processedFolders]
  | cons g rest ih =>
    intro s hnd hfresh
    rw [List.foldl_cons]
    have hnd2 := List.nodup_cons.mp hnd
    cases hd : lookupDir src g with
    | none =>
      rw [show stepSum src tok s g = s by simp [stepSum, hd]]
      rw [ih s hnd2.2 (fun f hf key hk => hfresh f (List.mem_cons_of_mem _ hf) key hk)]
      simp [processedFolders, List.filter_cons, hd]
    | some d =>
      rw [stepSum_eq_of_dir src tok s g d hd]
      have hfg : ∀ e ∈ s, e.1 ≠ g := by
        intro e he
        exact hfresh g (List.mem_cons_self _ _) e.1 (List.mem_map_of_mem Prod.fst he)
      rw [dictInsert_fresh s g _ hfg]
      have hfresh2 : ∀ f ∈ rest, ∀ key ∈ (s ++ [(g, folderVal src tok g)]).map Prod.fst, key ≠ f := by
        intro f hf key hk
        simp only [List.map_append, List.mem_append] at hk
        rcases hk with hk | hk
        · exact hfresh f (List.mem_cons_of_mem _ hf) key hk
        · simp at hk
          subst hk
          intro he
          exact hnd2.1 (he ▸ hf)
      rw [ih (s ++ [(g, folderVal src tok g)]) hnd2.2 hfresh2]
      have hp : processedFolders src (g :: rest) = g :: processedFolders src rest := by
        simp [processedFolders, List.filter_cons, hd]
      rw [hp]
      simp

/-! ## Closed forms for the whole run -/

theorem consolidate_artifacts (src : SrcTree) (srcD outD : Str) (folders : List Str) (tok : Str → Nat) :
    (consolidate_nextjs_files src srcD outD folders tok).artifacts =
      (processedFolders src folders).map (artEntry src outD tok) := by
  show (folders.foldl (stepFolder src srcD outD tok) ⟨[], [], 0, 0, []⟩).artifacts = _
  rw [run_decomp]
  show folders.foldl (stepArt src outD tok) [] = _
  rw [foldArt_closed]
  simp

theorem consolidate_totalLines (src : SrcTree) (srcD outD : Str) (folders : List Str) (tok : Str → Nat) :
    (consolidate_nextjs_files src srcD outD folders tok).totalLines =
      ((processedFolders src folders).map (specLinesOf src)).sum := by
  show (folders.foldl (stepFolder src srcD outD tok) ⟨[], [], 0, 0, []⟩).totalLines = _
  rw [run_decomp]
  show folders.foldl (stepTL src tok) 0 = _
  rw [foldTL_closed]
  simp

theorem consolidate_totalTokens (src : SrcTree) (srcD outD : Str) (folders : List Str) (tok : Str → Nat) :
    (consolidate_nextjs_files src srcD outD folders tok).totalTokens =
      ((processedFolders src folders).map (specTokensOf src tok)).sum := by
  show (folders.foldl (stepFolder src srcD outD tok) ⟨[], [], 0, 0, []⟩).totalTokens = _
  rw [run_decomp]
  show folders.foldl (stepTT src tok) 0 = _
  rw [foldTT_closed]
  simp

theorem consolidate_warnings (src : SrcTree) (srcD outD : Str) (folders : List Str) (tok : Str → Nat) :
    (consolidate_nextjs_files src srcD outD folders tok).warnings =
      (folders.filter (fun f => (lookupDir src f).isNone)).map (warnLine srcD) := by
  show (folders.foldl (stepFolder src srcD outD tok) ⟨[], [], 0, 0, []⟩).warnings = _
  rw [run_decomp]
  show folders.foldl (stepWarn src srcD) [] = _
  rw [foldWarn_closed]
  simp

theorem consolidate_summary_fold (src : SrcTree) (srcD outD : Str) (folders : List Str) (tok : Str → Nat) :
    (consolidate_nextjs_files src srcD outD folders tok).summary =
      folders.foldl (stepSum src tok) [] := by
  show (folders.foldl (stepFolder src srcD outD tok) ⟨[], [], 0, 0, []⟩).summary = _
  rw [run_decomp]

theorem consolidate_master_eq (src : SrcTree) (srcD outD : Str) (folders : List Str) (tok : Str → Nat) :
    (consolidate_nextjs_files src srcD outD folders tok).master =
      renderMaster ((processedFolders src folders).map (artEntry src outD tok))
        (((processedFolders src folders).map (specLinesOf src)).sum)
        (((processedFolders src folders).map (specTokensOf src tok)).sum) := by
  show renderMaster (folders.foldl (stepFolder src srcD outD tok) ⟨[], [], 0, 0, []⟩).artifacts
      (folders.foldl (stepFolder src srcD outD tok) ⟨[], [], 0, 0, []⟩).totalLines
      (folders.foldl (stepFolder src srcD outD tok) ⟨[], [], 0, 0, []⟩).totalTokens = _
  rw [show (folders.foldl (stepFolder src srcD outD tok) ⟨[], [], 0, 0, []⟩).artifacts =
      (consolidate_nextjs_files src srcD outD folders tok).artifacts from rfl,
    show (folders.foldl (stepFolder src srcD outD tok) ⟨[], [], 0, 0, []⟩).totalLines =
      (consolidate_nextjs_files src srcD outD folders tok).totalLines from rfl,
    show (folders.foldl (stepFolder src srcD outD tok) ⟨[], [], 0, 0, []⟩).totalTokens =
      (consolidate_nextjs_files src srcD outD folders tok).totalTokens from rfl,
    consolidate_artifacts, consolidate_totalLines, consolidate_totalTokens]

/-! ## Which files does the walk visit? -/

/-- A directory reachable from `d` through nested subdirectory entries. -/
inductive Reaches : Dir → Dir → Prop where
  | refl (d : Dir) : Reaches d d
  | step {fs : List (Str × Option Str)} {subs : List (Str × Dir)} {n : Str} {d1 d2 : Dir} :
      (n, d1) ∈ subs → Reaches d1 d2 → Reaches (.node fs subs) d2

theorem walkSubs_nil_eq (rel : Str) : walkSubs [] rel = [] := by simp [walkSubs]

theorem walkSubs_cons_eq (m : Str) (dm : Dir) (rest : List (Str × Dir)) (rel : Str) :
    walkSubs ((m, dm) :: rest) rel = Dir.walk dm (rel ++ slash ++ m) ++ walkSubs rest rel := by
  simp [walkSubs]

mutual

def walk_mem_fwd : ∀ (d : Dir) (rel r : Str) (fls : List (Str × Option Str)),
    (r, fls) ∈ Dir.walk d rel → ∃ d2, Reaches d d2 ∧ fls = d2.filesOf
  | .node fs subs, rel, r, fls, h => by
      rw [Dir.walk_def] at h
      rcases List.mem_cons.mp h with h1 | h1
      · injection h1 with h1a h1b
        exact ⟨.node fs subs, .refl _, by rw [h1b]; rfl⟩
      · obtain ⟨n, d1, hmem, d2, hr, he⟩ := walkSubs_mem_fwd subs rel r fls h1
        exact ⟨d2, .step hmem hr, he⟩

def walkSubs_mem_fwd : ∀ (subs : List (Str × Dir)) (rel r : Str) (fls : List (Str × Option Str)),
    (r, fls) ∈ walkSubs subs rel →
    ∃ n d1, (n, d1) ∈ subs ∧ ∃ d2, Reaches d1 d2 ∧ fls = d2.filesOf
  | [], rel, r, fls, h => by rw [walkSubs_nil_eq] at h; exact absurd h (List.not_mem_nil _)
  | (m, dm) :: rest, rel, r, fls, h => by
      rw [walkSubs_cons_eq] at h
      rcases List.mem_append.mp h with h1 | h1
      · obtain ⟨d2, hr, he⟩ := walk_mem_fwd dm (rel ++ slash ++ m) r fls h1
        exact ⟨m, dm, List.mem_cons_self _ _, d2, hr, he⟩
      · obtain ⟨n, d1, hmem, hrest⟩ := walkSubs_mem_fwd rest rel r fls h1
        exact ⟨n, d1, List.mem_cons_of_mem _ hmem, hrest⟩

end

mutual

def walk_mem_bwd : ∀ (d : Dir) (rel : Str) (d2 : Dir),
    Reaches d d2 → ∃ r, (r, d2.filesOf) ∈ Dir.walk d rel
  | .node fs subs, rel, d2, h => by
      cases h with
      | refl => exact ⟨rel, by rw [Dir.walk_def]; exact List.mem_cons_self _ _⟩
      | step hmem hr =>
        obtain ⟨r, hm⟩ := walkSubs_mem_bwd subs rel _ _ d2 hmem hr
        exact ⟨r, by rw [Dir.walk_def]; exact List.mem_cons_of_mem _ hm⟩

def walkSubs_mem_bwd : ∀ (subs : List (Str × Dir)) (rel : Str) (n : Str) (d1 d2 : Dir),
    (n, d1) ∈ subs → Reaches d1 d2 → ∃ r, (r, d2.filesOf) ∈ walkSubs subs rel
  | [], _, _, _, _, hmem, _ => absurd hmem (List.not_mem_nil _)
  | (m, dm) :: rest, rel, n, d1, d2, hmem, hr => by
      rcases List.mem_cons.mp hmem with h1 | h1
      · injection h1 with h1a h1b
        subst h1a
        subst h1b
        obtain ⟨r, hm⟩ := walk_mem_bwd d1 (rel ++ slash ++ n) d2 hr
        exact ⟨r, by rw [walkSubs_cons_eq]; exact List.mem_append.mpr (Or.inl hm)⟩
      · obtain ⟨r, hm⟩ := walkSubs_mem_bwd rest rel n d1 d2 h1 hr
        exact ⟨r, by rw [walkSubs_cons_eq]; exact List.mem_append.mpr (Or.inr hm)⟩

end

theorem walk_files_iff (d : Dir) (rel0 : Str) (fls : List (Str × Option Str)) :
    (∃ r, (r, fls) ∈ Dir.walk d rel0) ↔ ∃ d2, Reaches d d2 ∧ fls = d2.filesOf := by
  constructor
  · rintro ⟨r, h⟩
    exact walk_mem_fwd d rel0 r fls h
  · rintro ⟨d2, hr, rfl⟩
    exact walk_mem_bwd d rel0 d2 hr

theorem mem_blocksOfWalk (ws : List (Str × List (Str × Option Str))) (rel name : Str)
    (dat : Option Str) :
    (⟨rel, name, dat⟩ : Block) ∈ blocksOfWalk ws ↔
      ∃ fls, (rel, fls) ∈ ws ∧ (name, dat) ∈ fls ∧ matchesExt name = true := by
  constructor
  · intro h
    obtain ⟨rf, hrf, hb⟩ := List.mem_flatMap.mp h
    obtain ⟨rf1, rf2⟩ := rf
    obtain ⟨p, hp, he⟩ := List.mem_map.mp hb
    obtain ⟨p1, p2⟩ := p
    obtain ⟨hpm, hpx⟩ := List.mem_filter.mp hp
    injection he with he1 he2 he3
    subst he1
    subst he2
    subst he3
    exact ⟨rf2, hrf, hpm, hpx⟩
  · rintro ⟨fls, hw, hm, hx⟩
    apply List.mem_flatMap.mpr
    refine ⟨(rel, fls), hw, ?_⟩
    apply List.mem_map.mpr
    refine ⟨(name, dat), List.mem_filter.mpr ⟨hm, hx⟩, rfl⟩

theorem matchesExt_iff (name : Str) :
    matchesExt name = true ↔ ∃ e ∈ extensions, ∃ pre : Str, name = pre ++ e := by
  unfold matchesExt
  rw [List.any_eq_true]
  constructor
  · rintro ⟨e, he, hs⟩
    rw [List.isSuffixOf_iff_suffix] at hs
    obtain ⟨pre, hpre⟩ := hs
    exact ⟨e, he, pre, hpre.symm⟩
  · rintro ⟨e, he, pre, hpre⟩
    refine ⟨e, he, ?_⟩
    rw [List.isSuffixOf_iff_suffix]
    exact ⟨pre, hpre.symm⟩

/-! ## Lookup lemmas for the extension table -/

theorem lookupTab_of_mem {α : Type} : ∀ (tab : List (Str × α)) (k : Str) (v : α),
    (k, v) ∈ tab → (tab.map Prod.fst).Nodup → lookupTab tab k = some v := by
  intro tab
  induction tab with
  | nil => intro k v h _; simp at h
  | cons e rest ih =>
    intro k v h hnd
    obtain ⟨k0, v0⟩ := e
    have hnd2 := List.nodup_cons.mp hnd
    rcases List.mem_cons.mp h with h1 | h1
    · injection h1 with h1a h1b
      subst h1a
      simp [lookupTab, h1b]
    · have hk : k0 ≠ k := by
        intro he
        subst he
        have hm := List.mem_map_of_mem Prod.fst h1
        exact hnd2.1 hm
      simp only [lookupTab, if_neg hk]
      exact ih k v h1 hnd2.2

theorem lookupTab_none {α : Type} : ∀ (tab : List (Str × α)) (k : Str),
    (∀ p ∈ tab, k ≠ p.1) → lookupTab tab k = none := by
  intro tab
  induction tab with
  | nil => intro k _; rfl
  | cons e rest ih =>
    intro k h
    obtain ⟨k0, v0⟩ := e
    have hk : k0 ≠ k := fun he => h (k0, v0) (List.mem_cons_self _ _) he.symm
    simp only [lookupTab, if_neg hk]
    exact ih k (fun p hp => h p (List.mem_cons_of_mem _ hp))

/-- C8: the extension-to-language mapper is a total function that matches
the fixed table case-insensitively (lookup key is the lowercased
extension, leading separator included) and returns the default tag
"plaintext" for every extension whose lowercasing matches no table key. -/
theorem claim8_mapper_table_and_default :
    (∀ (s k v : Str), (k, v) ∈ extension_map → lowerStr s = k → map_extension_to_language s = v)
    ∧ (∀ s : Str, (∀ p ∈ extension_map, lowerStr s ≠ p.1) →
        map_extension_to_language s = str "plaintext") := by
  constructor
  · intro s k v hmem hlow
    have hnd : (extension_map.map Prod.fst).Nodup := by decide
    unfold map_extension_to_language
    rw [hlow, lookupTab_of_mem extension_map k v hmem hnd]
    rfl
  · intro s h
    unfold map_extension_to_language
    rw [lookupTab_none extension_map (lowerStr s) (fun p hp => h p hp)]
    rfl

/-- Witness for C8: the uppercase extension ".JS" maps to "javascript"
through the table, and the unmapped ".py" falls back to "plaintext". -/
theorem claim8_witness :
    map_extension_to_language (str ".JS") = str "javascript"
    ∧ map_extension_to_language (str ".py") = str "plaintext" :=
  ⟨claim8_mapper_table_and_default.1 (str ".JS") (str ".js") (str "javascript")
      (by decide) (by decide),
   claim8_mapper_table_and_default.2 (str ".py") (by decide)⟩

/-- C7: the walk visits exactly the files of the directories reachable
from the folder root (all nested subfolders), and a file becomes a block
if and only if its name ends, by case-sensitive suffix match, with one of
the eight recognised extensions. -/
theorem claim7_walk_visits_and_filters (f : Str) (d : Dir) :
    extensions.length = 8
    ∧ ∀ (name : Str) (dat : Option Str),
      ((∃ rel, (⟨rel, name, dat⟩ : Block) ∈ matchedBlocks f d) ↔
        ((∃ d2, Reaches d d2 ∧ (name, dat) ∈ d2.filesOf)
          ∧ ∃ e ∈ extensions, ∃ pre : Str, name = pre ++ e)) := by
  constructor
  · rfl
  · intro name dat
    constructor
    · rintro ⟨rel, h⟩
      obtain ⟨fls, hw, hm, hx⟩ := (mem_blocksOfWalk (Dir.walk d f) rel name dat).mp h
      obtain ⟨d2, hr, rfl⟩ := walk_mem_fwd d f rel fls hw
      exact ⟨⟨d2, hr, hm⟩, (matchesExt_iff name).mp hx⟩
    · rintro ⟨⟨d2, hr, hm⟩, hsuf⟩
      obtain ⟨r, hw⟩ := walk_mem_bwd d f d2 hr
      exact ⟨r, (mem_blocksOfWalk (Dir.walk d f) r name dat).mpr
        ⟨d2.filesOf, hw, hm, (matchesExt_iff name).mpr hsuf⟩⟩

/-- Witness for C7: in a concrete nested tree, the file "b.ts" of the
nested subfolder is matched, and the non-matching "c.txt" is not. -/
theorem claim7_witness :
    (∃ rel, (⟨rel, str "b.ts", some (str "y")⟩ : Block) ∈
      matchedBlocks (str "lib")
        (Dir.node [(str "c.txt", some (str "z"))]
          [(str "sub", Dir.node [(str "b.ts", some (str "y"))] [])]))
    ∧ ¬ (∃ rel, (⟨rel, str "c.txt", some (str "z")⟩ : Block) ∈
      matchedBlocks (str "lib")
        (Dir.node [(str "c.txt", some (str "z"))]
          [(str "sub", Dir.node [(str "b.ts", some (str "y"))] [])])) := by
  constructor
  · refine ((claim7_walk_visits_and_filters (str "lib")
      (Dir.node [(str "c.txt", some (str "z"))]
        [(str "sub", Dir.node [(str "b.ts", some (str "y"))] [])])).2 (str "b.ts") (some (str "y"))).mpr ?_
    refine ⟨⟨Dir.node [(str "b.ts", some (str "y"))] [], ?_, by decide⟩, ?_⟩
    · exact .step (List.mem_cons_self _ _) (.refl _)
    · exact ⟨str ".ts", by decide, str "b", by decide⟩
  · intro hmem
    have h2 := ((claim7_walk_visits_and_filters (str "lib")
      (Dir.node [(str "c.txt", some (str "z"))]
        [(str "sub", Dir.node [(str "b.ts", some (str "y"))] [])])).2 (str "c.txt") (some (str "z"))).mp hmem
    obtain ⟨-, e, he, pre, hpre⟩ := h2
    have hsuf : e.isSuffixOf (str "c.txt") = true := by
      rw [List.isSuffixOf_iff_suffix]
      exact ⟨pre, hpre.symm⟩
    fin_cases he <;> revert hsuf <;> decide

/-! ## The header rewrite and the leading line of an artifact -/

theorem headerPat_ne_nil (f : Str) : headerPat f ≠ [] := by
  unfold headerPat
  rw [show str "// Consolidated files from the \"" =
      '/' :: str "/ Consolidated files from the \"" from rfl]
  simp

theorem headerRep_no_newline (f : Str) (k : Nat) (hf : '\n' ∉ f) : '\n' ∉ headerRep f k := by
  unfold headerRep
  intro h
  rcases List.mem_append.mp h with h1 | h1
  · rcases List.mem_append.mp h1 with h2 | h2
    · rcases List.mem_append.mp h2 with h3 | h3
      · rcases List.mem_append.mp h3 with h4 | h4
        · revert h4; decide
        · exact natStr_no_newline k h4
      · revert h3; decide
    · exact hf h2
  · revert h1; decide

theorem headerRest_cons (f : Str) :
    headerRest f ++ ((matchedBlocks f d).flatMap renderBlock) =
      '\n' :: (str "// This file contains all code files within the \"" ++ f
        ++ str "\" folder and its subfolders.\n\n" ++ (matchedBlocks f d).flatMap renderBlock) := by
  unfold headerRest
  rw [show str "\n// This file contains all code files within the \"" =
      '\n' :: str "// This file contains all code files within the \"" from rfl]
  simp

theorem headerPat_not_prefix_newline (f : Str) (t : Str) : ¬ headerPat f <+: ('\n' :: t) := by
  intro h
  unfold headerPat at h
  rw [show str "// Consolidated files from the \"" =
      '/' :: str "/ Consolidated files from the \"" from rfl] at h
  rw [show ('/' :: str "/ Consolidated files from the \"") ++ f ++ str "\" folder" =
      '/' :: (str "/ Consolidated files from the \"" ++ f ++ str "\" folder") from by simp] at h
  rw [List.cons_prefix_cons] at h
  exact absurd h.1 (by decide)

theorem processFolder_firstLine (f : Str) (d : Dir) (tok : Str → Nat) (hf : '\n' ∉ f) :
    firstLine (processFolder f d tok).artifact = headerRep f ((matchedBlocks f d).length) := by
  obtain ⟨hpre, hcnt, hlin, htokn, hart⟩ := processFolder_spec f d tok
  rw [hart, hpre]
  rw [show headerStr f ++ (matchedBlocks f d).flatMap renderBlock =
      headerPat f ++ (headerRest f ++ (matchedBlocks f d).flatMap renderBlock) from by
    simp [headerStr]]
  rw [replaceAll_head _ _ _ (headerPat_ne_nil f)]
  rw [headerRest_cons f]
  rw [replaceAll_miss _ _ _ _ (headerPat_not_prefix_newline f _)]
  exact firstLine_append _ _ (headerRep_no_newline f _ hf)

/-- C1: for a folder whose name contains no newline, the included-file
count of the walk equals the number of matched files, the artifact body
is exactly one serialized block per matched file (in traversal order,
after the two header lines), and after the rewrite pass the artifact's
leading line reads the rewritten header carrying that count. -/
theorem claim1_header_count_and_blocks (f : Str) (d : Dir) (tok : Str → Nat)
    (hf : '\n' ∉ f) :
    (processFolder f d tok).count = (matchedBlocks f d).length
    ∧ (processFolder f d tok).pre = headerStr f ++ (matchedBlocks f d).flatMap renderBlock
    ∧ firstLine (processFolder f d tok).artifact = headerRep f ((matchedBlocks f d).length) := by
  obtain ⟨hpre, hcnt, -, -, -⟩ := processFolder_spec f d tok
  exact ⟨hcnt, hpre, processFolder_firstLine f d tok hf⟩

set_option maxRecDepth 40000 in
/-- Witness for C1: a concrete folder with one decodable and one
undecodable matched file plus one unmatched file gives count 2, a
two-block body, and the rewritten leading line reporting 2. -/
theorem claim1_witness :
    (processFolder (str "lib")
        (Dir.node [(str "a.ts", some (str "x")), (str "b.md", none), (str "n.txt", some (str "q"))] [])
        (fun s => s.length)).count = 2
    ∧ (processFolder (str "lib")
        (Dir.node [(str "a.ts", some (str "x")), (str "b.md", none), (str "n.txt", some (str "q"))] [])
        (fun s => s.length)).pre =
      headerStr (str "lib")
        ++ (matchedBlocks (str "lib")
            (Dir.node [(str "a.ts", some (str "x")), (str "b.md", none), (str "n.txt", some (str "q"))] [])).flatMap
          renderBlock
    ∧ firstLine (processFolder (str "lib")
        (Dir.node [(str "a.ts", some (str "x")), (str "b.md", none), (str "n.txt", some (str "q"))] [])
        (fun s => s.length)).artifact =
      headerRep (str "lib")
        ((matchedBlocks (str "lib")
            (Dir.node [(str "a.ts", some (str "x")), (str "b.md", none), (str "n.txt", some (str "q"))] [])).length) := by
  have h := claim1_header_count_and_blocks (str "lib")
    (Dir.node [(str "a.ts", some (str "x")), (str "b.md", none), (str "n.txt", some (str "q"))] [])
    (fun s => s.length) (by decide)
  refine ⟨?_, h.2.1, h.2.2⟩
  rw [h.1]
  decide

/-- C3: an undecodable matched file does not abort the folder walk: its
block is the two header lines followed by the skip placeholder, the
folder's line and token counts range only over the successfully decoded
matched files, and the undecodable file still counts toward the
included-file total used by the header. -/
theorem claim3_undecodable_marked_uncounted (f : Str) (d : Dir) (tok : Str → Nat) :
    (∀ b ∈ matchedBlocks f d, b.data = none →
      renderBlock b = blockHeader b ++ str "// [Binary file or non-UTF-8 encoding, content skipped]\n\n")
    ∧ (processFolder f d tok).pre = headerStr f ++ (matchedBlocks f d).flatMap renderBlock
    ∧ (processFolder f d tok).lines =
        (((matchedBlocks f d).filterMap Block.data).map numLines).sum
    ∧ (processFolder f d tok).tokens =
        (((matchedBlocks f d).filterMap Block.data).map tok).sum
    ∧ (processFolder f d tok).count = (matchedBlocks f d).length := by
  obtain ⟨hpre, hcnt, hlin, htokn, -⟩ := processFolder_spec f d tok
  refine ⟨?_, hpre, hlin, htokn, hcnt⟩
  intro b hb hnone
  simp [renderBlock, fencedBody, hnone]

set_option maxRecDepth 40000 in
/-- Witness for C3: a folder with one undecodable ".md" file and one
decodable ".ts" file; the placeholder block, counts over decoded files
only, and the inclusive file count are all checked concretely. -/
theorem claim3_witness :
    renderBlock ⟨str "lib", str "b.md", none⟩ =
      blockHeader ⟨str "lib", str "b.md", none⟩
        ++ str "// [Binary file or non-UTF-8 encoding, content skipped]\n\n"
    ∧ (processFolder (str "lib") (Dir.node [(str "a.ts", some (str "x")), (str "b.md", none)] [])
        (fun s => s.length)).lines =
      (((matchedBlocks (str "lib") (Dir.node [(str "a.ts", some (str "x")), (str "b.md", none)] [])).filterMap
          Block.data).map numLines).sum
    ∧ (processFolder (str "lib") (Dir.node [(str "a.ts", some (str "x")), (str "b.md", none)] [])
        (fun s => s.length)).count = 2 := by
  have h := claim3_undecodable_marked_uncounted (str "lib")
    (Dir.node [(str "a.ts", some (str "x")), (str "b.md", none)] []) (fun s => s.length)
  refine ⟨h.1 ⟨str "lib", str "b.md", none⟩ (by decide) rfl, h.2.2.1, ?_⟩
  rw [h.2.2.2.2]
  decide

/-! ## Master manifest helpers -/

theorem infix_extend (a b l m : Str) (h : l <:+: m) : l <:+: (a ++ m ++ b) := by
  obtain ⟨s, t, hst⟩ := h
  exact ⟨a ++ s, t ++ b, by rw [← hst]; simp⟩

theorem basename_joinPath (outD b : Str) (hb : '/' ∉ b) : basenameS (joinPath outD b) = b := by
  have h : joinPath outD b = outD ++ '/' :: b := by
    simp [joinPath, slash, str]
  rw [h, basename_after_slash, basename_noslash b hb]

theorem noslash_name_suffix (f : Str) (hsl : '/' ∉ f) : '/' ∉ f ++ str "_consolidated.txt" := by
  intro h
  rcases List.mem_append.mp h with h1 | h1
  · exact hsl h1
  · revert h1; decide

theorem manifestLine_of_folder (outD f : Str) (hsl : '/' ∉ f) :
    manifestLine (joinPath outD (f ++ str "_consolidated.txt")) =
      str "// - " ++ f ++ str "_consolidated.txt\n" := by
  unfold manifestLine
  rw [basename_joinPath outD _ (noslash_name_suffix f hsl)]
  rw [show str "_consolidated.txt\n" = str "_consolidated.txt" ++ str "\n" from rfl]
  simp

/-- C10: a configured folder that exists but matches no files still gets
an artifact whose rewritten leading line reports 0 files, enters the
folder summary with zero lines and tokens, contributes zero to the
totals, and its artifact is created and named in the master manifest. -/
theorem claim10_empty_folder (src : SrcTree) (srcD outD : Str) (folders : List Str)
    (tok : Str → Nat) (f : Str) (d : Dir)
    (hmem : f ∈ folders) (hdir : lookupDir src f = some d)
    (hempty : matchedBlocks f d = []) (hnl : '\n' ∉ f) (hsl : '/' ∉ f) :
    firstLine (processFolder f d tok).artifact = headerRep f 0
    ∧ (processFolder f d tok).lines = 0
    ∧ (processFolder f d tok).tokens = 0
    ∧ (f, 0, 0) ∈ (consolidate_nextjs_files src srcD outD folders tok).summary
    ∧ joinPath outD (f ++ str "_consolidated.txt") ∈
        (consolidate_nextjs_files src srcD outD folders tok).artifacts.map Prod.fst
    ∧ (str "// - " ++ f ++ str "_consolidated.txt\n") <:+:
        (consolidate_nextjs_files src srcD outD folders tok).master := by
  obtain ⟨hpre, hcnt, hlin, htokn, hart⟩ := processFolder_spec f d tok
  have hfv : folderVal src tok f = (0, 0) := by
    simp [folderVal, specLinesOf, specTokensOf, hdir, hempty, specLines, specTokens]
  have hproc : f ∈ processedFolders src folders :=
    List.mem_filter.mpr ⟨hmem, by simp [hdir]⟩
  refine ⟨?_, ?_, ?_, ?_, ?_, ?_⟩
  · rw [processFolder_firstLine f d tok hnl, hempty]
    rfl
  · rw [hlin, hempty]
    rfl
  · rw [htokn, hempty]
    rfl
  · rw [consolidate_summary_fold]
    have h := foldSum_mem src tok folders [] f hmem (by simp [hdir])
    rwa [hfv] at h
  · rw [consolidate_artifacts, List.map_map]
    have : (artEntry src outD tok f).1 = joinPath outD (f ++ str "_consolidated.txt") := rfl
    exact this ▸ List.mem_map_of_mem _ hproc
  · rw [consolidate_master_eq]
    unfold renderMaster
    have hline : manifestLine (artEntry src outD tok f).1 ∈
        ((processedFolders src folders).map (artEntry src outD tok)).map
          (fun cf => manifestLine cf.1) := by
      rw [List.map_map]
      exact List.mem_map_of_mem _ hproc
    have hinf := List.infix_of_mem_flatten hline
    rw [show manifestLine (artEntry src outD tok f).1 =
        str "// - " ++ f ++ str "_consolidated.txt\n" from manifestLine_of_folder outD f hsl] at hinf
    have hext := infix_extend
      (masterHeader ((processedFolders src folders).map (artEntry src outD tok)).length)
      (str "\n"
        ++ statsBlock (((processedFolders src folders).map (specLinesOf src)).sum)
            (((processedFolders src folders).map (specTokensOf src tok)).sum)
        ++ (((processedFolders src folders).map (artEntry src outD tok)).map
            (fun cf => folderSection cf.1 cf.2)).flatten)
      _ _ hinf
    rw [show
      masterHeader ((processedFolders src folders).map (artEntry src outD tok)).length
        ++ (((processedFolders src folders).map (artEntry src outD tok)).map
            (fun cf => manifestLine cf.1)).flatten
        ++ str "\n"
        ++ statsBlock (((processedFolders src folders).map (specLinesOf src)).sum)
            (((processedFolders src folders).map (specTokensOf src tok)).sum)
        ++ (((processedFolders src folders).map (artEntry src outD tok)).map
            (fun cf => folderSection cf.1 cf.2)).flatten =
      masterHeader ((processedFolders src folders).map (artEntry src outD tok)).length
        ++ (((processedFolders src folders).map (artEntry src outD tok)).map
            (fun cf => manifestLine cf.1)).flatten
        ++ (str "\n"
            ++ statsBlock (((processedFolders src folders).map (specLinesOf src)).sum)
                (((processedFolders src folders).map (specTokensOf src tok)).sum)
            ++ (((processedFolders src folders).map (artEntry src outD tok)).map
                (fun cf => folderSection cf.1 cf.2)).flatten) from by simp]
    exact hext

set_option maxRecDepth 40000 in
/-- Witness for C10: a run over a single existing folder "types" whose
only file has an unrecognised extension. -/
theorem claim10_witness :
    (str "types", 0, 0) ∈
      (consolidate_nextjs_files
        [(str "types", FsNode.dir (Dir.node [(str "x.py", some (str "z"))] []))]
        (str "src") (str "node_consolidate") [str "types"] (fun s => s.length)).summary
    ∧ firstLine (processFolder (str "types") (Dir.node [(str "x.py", some (str "z"))] [])
        (fun s => s.length)).artifact = headerRep (str "types") 0 := by
  have h := claim10_empty_folder
    [(str "types", FsNode.dir (Dir.node [(str "x.py", some (str "z"))] []))]
    (str "src") (str "node_consolidate") [str "types"] (fun s => s.length)
    (str "types") (Dir.node [(str "x.py", some (str "z"))] [])
    (by decide) (by rfl) (by decide) (by decide) (by decide)
  exact ⟨h.2.2.2.1, h.1⟩

/-! ## Skipping a missing folder -/

theorem processedFolders_filter_ne (src : SrcTree) (folders : List Str) (f : Str)
    (habs : lookupDir src f = none) :
    processedFolders src (folders.filter (fun g => decide (g ≠ f))) =
      processedFolders src folders := by
  unfold processedFolders
  rw [List.filter_filter]
  apply List.filter_congr
  intro g _
  by_cases hg : g = f
  · subst hg
    simp [habs]
  · simp [hg]

/-- C2: a configured folder name that is absent (or not a directory)
under the source root is warned about and skipped: the run's artifacts,
folder summary, totals and master artifact are those of the run with
that name removed from the configuration, no folder-summary entry
carries the name, and no artifact with its output path is created. -/
theorem claim2_missing_folder_skipped (src : SrcTree) (srcD outD : Str) (folders : List Str)
    (tok : Str → Nat) (f : Str) (hmem : f ∈ folders) (habs : lookupDir src f = none) :
    warnLine srcD f ∈ (consolidate_nextjs_files src srcD outD folders tok).warnings
    ∧ (consolidate_nextjs_files src srcD outD folders tok).artifacts =
        (consolidate_nextjs_files src srcD outD (folders.filter (fun g => decide (g ≠ f))) tok).artifacts
    ∧ (consolidate_nextjs_files src srcD outD folders tok).totalLines =
        (consolidate_nextjs_files src srcD outD (folders.filter (fun g => decide (g ≠ f))) tok).totalLines
    ∧ (consolidate_nextjs_files src srcD outD folders tok).totalTokens =
        (consolidate_nextjs_files src srcD outD (folders.filter (fun g => decide (g ≠ f))) tok).totalTokens
    ∧ (consolidate_nextjs_files src srcD outD folders tok).master =
        (consolidate_nextjs_files src srcD outD (folders.filter (fun g => decide (g ≠ f))) tok).master
    ∧ (∀ e ∈ (consolidate_nextjs_files src srcD outD folders tok).summary, e.1 ≠ f)
    ∧ joinPath outD (f ++ str "_consolidated.txt") ∉
        (consolidate_nextjs_files src srcD outD folders tok).artifacts.map Prod.fst := by
  have hps := processedFolders_filter_ne src folders f habs
  refine ⟨?_, ?_, ?_, ?_, ?_, ?_, ?_⟩
  · rw [consolidate_warnings]
    exact List.mem_map_of_mem _ (List.mem_filter.mpr ⟨hmem, by simp [habs]⟩)
  · rw [consolidate_artifacts, consolidate_artifacts, hps]
  · rw [consolidate_totalLines, consolidate_totalLines, hps]
  · rw [consolidate_totalTokens, consolidate_totalTokens, hps]
  · rw [consolidate_master_eq, consolidate_master_eq, hps]
  · intro e he hef
    rw [consolidate_summary_fold] at he
    have hkey := foldSum_keys src tok folders [] e.1 (List.mem_map_of_mem Prod.fst he)
    rcases hkey with h1 | h1
    · simp at h1
    · rw [hef, habs] at h1
      simp at h1
  · intro h
    rw [consolidate_artifacts, List.map_map] at h
    obtain ⟨g, hg, hge⟩ := List.mem_map.mp h
    have hg2 := List.mem_filter.mp hg
    have hgf : g = f := by
      have he1 : (str "_consolidated.txt" : Str) = str "_consolidated.txt" := rfl
      have h2 : g ++ str "_consolidated.txt" = f ++ str "_consolidated.txt" :=
        List.append_cancel_left (show (outD ++ slash) ++ (g ++ str "_consolidated.txt") =
          (outD ++ slash) ++ (f ++ str "_consolidated.txt") from hge)
      exact List.append_cancel_right h2
    rw [hgf] at hg2
    rw [habs] at hg2
    simp at hg2

set_option maxRecDepth 40000 in
/-- Witness for C2: a two-folder configuration where "missing" is absent
from the source root; its warning appears and the run equals the
one-folder run. -/
theorem claim2_witness :
    warnLine (str "src") (str "missing") ∈
      (consolidate_nextjs_files
        [(str "lib", FsNode.dir (Dir.node [(str "a.ts", some (str "x"))] []))]
        (str "src") (str "node_consolidate") [str "lib", str "missing"] (fun s => s.length)).warnings
    ∧ (consolidate_nextjs_files
        [(str "lib", FsNode.dir (Dir.node [(str "a.ts", some (str "x"))] []))]
        (str "src") (str "node_consolidate") [str "lib", str "missing"] (fun s => s.length)).artifacts =
      (consolidate_nextjs_files
        [(str "lib", FsNode.dir (Dir.node [(str "a.ts", some (str "x"))] []))]
        (str "src") (str "node_consolidate")
        ([str "lib", str "missing"].filter (fun g => decide (g ≠ str "missing"))) (fun s => s.length)).artifacts := by
  have h := claim2_missing_folder_skipped
    [(str "lib", FsNode.dir (Dir.node [(str "a.ts", some (str "x"))] []))]
    (str "src") (str "node_consolidate") [str "lib", str "missing"] (fun s => s.length)
    (str "missing") (by decide) (by rfl)
  exact ⟨h.1, h.2.1⟩

/-! ## Aggregate totals -/

/-- C4: for a duplicate-free folder configuration (the spec's ordered
set), the reported total line count is the sum over all processed
folders of the declarative per-folder line count (itself the sum of
`numLines` over the successfully decoded matched files), likewise for
tokens under the external tokenizer, and each total equals the sum of
the corresponding field over the folder-summary entries. -/
theorem claim4_totals_are_sums (src : SrcTree) (srcD outD : Str) (folders : List Str)
    (tok : Str → Nat) (hnd : folders.Nodup) :
    (consolidate_nextjs_files src srcD outD folders tok).totalLines =
      ((processedFolders src folders).map (specLinesOf src)).sum
    ∧ (consolidate_nextjs_files src srcD outD folders tok).totalTokens =
      ((processedFolders src folders).map (specTokensOf src tok)).sum
    ∧ (consolidate_nextjs_files src srcD outD folders tok).totalLines =
      ((consolidate_nextjs_files src srcD outD folders tok).summary.map (fun e => e.2.1)).sum
    ∧ (consolidate_nextjs_files src srcD outD folders tok).totalTokens =
      ((consolidate_nextjs_files src srcD outD folders tok).summary.map (fun e => e.2.2)).sum := by
  have hsum : (consolidate_nextjs_files src srcD outD folders tok).summary =
      (processedFolders src folders).map (fun f => (f, folderVal src tok f)) := by
    rw [consolidate_summary_fold]
    have h := foldSum_closed src tok folders [] hnd (by intro f _ key hk; simp at hk)
    simpa using h
  refine ⟨consolidate_totalLines src srcD outD folders tok,
    consolidate_totalTokens src srcD outD folders tok, ?_, ?_⟩
  · rw [consolidate_totalLines, hsum, List.map_map]
    rfl
  · rw [consolidate_totalTokens, hsum, List.map_map]
    rfl

set_option maxRecDepth 40000 in
/-- Witness for C4: the default six-folder configuration over a source
root containing only a "lib" directory with one decodable file. -/
theorem claim4_witness :
    (consolidate_nextjs_files
        [(str "lib", FsNode.dir (Dir.node [(str "a.ts", some (str "p\nq"))] []))]
        (str "src") (str "node_consolidate") main_folders_default (fun s => s.length)).totalLines =
      ((processedFolders
          [(str "lib", FsNode.dir (Dir.node [(str "a.ts", some (str "p\nq"))] []))]
          main_folders_default).map
        (specLinesOf [(str "lib", FsNode.dir (Dir.node [(str "a.ts", some (str "p\nq"))] []))])).sum
    ∧ (consolidate_nextjs_files
        [(str "lib", FsNode.dir (Dir.node [(str "a.ts", some (str "p\nq"))] []))]
        (str "src") (str "node_consolidate") main_folders_default (fun s => s.length)).totalLines =
      ((consolidate_nextjs_files
          [(str "lib", FsNode.dir (Dir.node [(str "a.ts", some (str "p\nq"))] []))]
          (str "src") (str "node_consolidate") main_folders_default (fun s => s.length)).summary.map
        (fun e => e.2.1)).sum := by
  have h := claim4_totals_are_sums
    [(str "lib", FsNode.dir (Dir.node [(str "a.ts", some (str "p\nq"))] []))]
    (str "src") (str "node_consolidate") main_folders_default (fun s => s.length)
    (by decide)
  exact ⟨h.1, h.2.2.1⟩

/-! ## Master composition -/

theorem strip_suffix_name (f : Str) (hu : '_' ∉ f) :
    replaceAll (f ++ str "_consolidated.txt") (str "_consolidated.txt") [] = f := by
  rw [show (str "_consolidated.txt" : Str) = '_' :: str "consolidated.txt" from rfl]
  have h := replaceAll_strip f '_' (str "consolidated.txt") [] hu
  rw [h]
  simp

theorem folderSection_of_folder (outD f c : Str) (hsl : '/' ∉ f) (hu : '_' ∉ f) :
    folderSection (joinPath outD (f ++ str "_consolidated.txt")) c =
      str "// ===== Start of " ++ f ++ str " folder =====\n\n" ++ c
        ++ str "\n// ===== End of " ++ f ++ str " folder =====\n\n" := by
  unfold folderSection
  rw [basename_joinPath _ _ (noslash_name_suffix f hsl), strip_suffix_name f hu]

/-- C5: under the configured folder names (which contain no path
separator and no underscore, as the six defaults do), the created
artifacts are exactly the per-folder artifacts of the processed folders
in configured order, and the master artifact equals the spec-side
composition: a manifest naming each created artifact, a statistics block
carrying the independently computed line/token sums, and each artifact's
raw content between start/end markers naming its folder. -/
theorem claim5_master_matches_spec (src : SrcTree) (srcD outD : Str) (folders : List Str)
    (tok : Str → Nat) (hn : ∀ f ∈ folders, '/' ∉ f ∧ '_' ∉ f) :
    (consolidate_nextjs_files src srcD outD folders tok).artifacts.map Prod.fst =
      (processedFolders src folders).map (fun f => joinPath outD (f ++ str "_consolidated.txt"))
    ∧ (consolidate_nextjs_files src srcD outD folders tok).master = masterSpec src folders tok := by
  have hps_mem : ∀ f ∈ processedFolders src folders, '/' ∉ f ∧ '_' ∉ f :=
    fun f hf => hn f (List.mem_filter.mp hf).1
  constructor
  · rw [consolidate_artifacts, List.map_map]
    rfl
  · rw [consolidate_master_eq]
    unfold renderMaster masterSpec
    have hmani : ((processedFolders src folders).map (artEntry src outD tok)).map
        (fun cf => manifestLine cf.1) =
        (processedFolders src folders).map
          (fun f => str "// - " ++ f ++ str "_consolidated.txt\n") := by
      rw [List.map_map]
      apply List.map_congr_left
      intro f hf
      exact manifestLine_of_folder outD f (hps_mem f hf).1
    have hsec : ((processedFolders src folders).map (artEntry src outD tok)).map
        (fun cf => folderSection cf.1 cf.2) =
        (processedFolders src folders).map
          (fun f =>
            str "// ===== Start of " ++ f ++ str " folder =====\n\n" ++ specArtifactOf src tok f
              ++ str "\n// ===== End of " ++ f ++ str " folder =====\n\n") := by
      rw [List.map_map]
      apply List.map_congr_left
      intro f hf
      exact folderSection_of_folder outD f (specArtifactOf src tok f) (hps_mem f hf).1 (hps_mem f hf).2
    rw [hmani, hsec, List.length_map]

set_option maxRecDepth 100000 in
/-- Witness for C5: a one-folder run; the created-artifact list and the
master artifact are the spec-side ones. -/
theorem claim5_witness :
    (consolidate_nextjs_files
        [(str "lib", FsNode.dir (Dir.node [(str "a.ts", some (str "x"))] []))]
        (str "src") (str "node_consolidate") [str "lib"] (fun s => s.length)).artifacts.map Prod.fst =
      (processedFolders [(str "lib", FsNode.dir (Dir.node [(str "a.ts", some (str "x"))] []))]
        [str "lib"]).map
        (fun f => joinPath (str "node_consolidate") (f ++ str "_consolidated.txt"))
    ∧ (consolidate_nextjs_files
        [(str "lib", FsNode.dir (Dir.node [(str "a.ts", some (str "x"))] []))]
        (str "src") (str "node_consolidate") [str "lib"] (fun s => s.length)).master =
      masterSpec [(str "lib", FsNode.dir (Dir.node [(str "a.ts", some (str "x"))] []))]
        [str "lib"] (fun s => s.length) :=
  claim5_master_matches_spec
    [(str "lib", FsNode.dir (Dir.node [(str "a.ts", some (str "x"))] []))]
    (str "src") (str "node_consolidate") [str "lib"] (fun s => s.length)
    (by decide)

/-! ## The frame of the header rewrite -/

set_option maxRecDepth 400000 in
/-- Counterexample to C6 as stated: when a file's content itself contains
the original header comment text, the rewrite (Python `str.replace`,
which replaces every occurrence) also rewrites that body text, so the
artifact is not the rewritten header followed by the unchanged remainder
of the first-pass artifact. -/
theorem claim6_counterexample :
    ¬ ((processFolder (str "lib")
          (Dir.node [(str "a.md", some (headerPat (str "lib")))] [])
          (fun _ => 0)).artifact =
        headerRep (str "lib")
          ((processFolder (str "lib")
            (Dir.node [(str "a.md", some (headerPat (str "lib")))] [])
            (fun _ => 0)).count)
          ++ ((processFolder (str "lib")
              (Dir.node [(str "a.md", some (headerPat (str "lib")))] [])
              (fun _ => 0)).pre).drop (headerPat (str "lib")).length) := by
  decide

/-- C6 (amended): the rewrite pass replaces every occurrence of the
original header comment in the artifact; provided the artifact after its
leading header line does not contain that header text, only the leading
header changes and every remaining byte of the artifact, in particular
the content of every per-file block, is unchanged. -/
theorem claim6_rewrite_frame (f : Str) (d : Dir) (tok : Str → Nat)
    (h : ¬ headerPat f <:+: (headerRest f ++ (matchedBlocks f d).flatMap renderBlock)) :
    (processFolder f d tok).artifact =
      headerRep f ((processFolder f d tok).count)
        ++ ((processFolder f d tok).pre).drop (headerPat f).length := by
  obtain ⟨hpre, hcnt, -, -, hart⟩ := processFolder_spec f d tok
  have hsplit : (processFolder f d tok).pre =
      headerPat f ++ (headerRest f ++ (matchedBlocks f d).flatMap renderBlock) := by
    rw [hpre]
    simp [headerStr]
  rw [hart, hcnt, hsplit, replaceAll_head _ _ _ (headerPat_ne_nil f),
    replaceAll_no_occur _ _ _ h, List.drop_left]

set_option maxRecDepth 400000 in
/-- Witness for the amended C6: a folder whose body does not contain the
header text is rewritten only in its leading header. -/
theorem claim6_witness :
    (processFolder (str "lib") (Dir.node [(str "a.ts", some (str "x"))] [])
        (fun _ => 0)).artifact =
      headerRep (str "lib")
        ((processFolder (str "lib") (Dir.node [(str "a.ts", some (str "x"))] [])
          (fun _ => 0)).count)
        ++ ((processFolder (str "lib") (Dir.node [(str "a.ts", some (str "x"))] [])
            (fun _ => 0)).pre).drop (headerPat (str "lib")).length :=
  claim6_rewrite_frame (str "lib") (Dir.node [(str "a.ts", some (str "x"))] [])
    (fun _ => 0) (by decide)

/-! ## Output-directory state: lookups and write idempotence -/

/-- Content of a named file in an output state (first match). -/
def getFile : OutState → Str → Option Str
  | [], _ => none
  | (k0, v0) :: rest, k => if k0 = k then some v0 else getFile rest k

/-- The last value written for a key by a list of writes, if any. -/
def lastVal (ws : List (Str × Str)) (k : Str) : Option Str :=
  ws.foldl (fun acc w => if w.1 = k then some w.2 else acc) none

theorem getFile_none : ∀ (s : OutState) (k : Str), k ∉ s.map Prod.fst → getFile s k = none := by
  intro s
  induction s with
  | nil => intro k _; rfl
  | cons e rest ih =>
    intro k h
    obtain ⟨k0, v0⟩ := e
    have h2 : k ∉ k0 :: rest.map Prod.fst := by simpa using h
    have hk : k0 ≠ k := fun he => h2 (by rw [he]; exact List.mem_cons_self _ _)
    simp only [getFile, if_neg hk]
    exact ih k (fun hm => h2 (List.mem_cons_of_mem _ hm))

theorem updAll_getFile_other : ∀ (s : OutState) (k v k2 : Str), k2 ≠ k →
    getFile (updAll s k v) k2 = getFile s k2 := by
  intro s
  induction s with
  | nil => intro k v k2 _; rfl
  | cons e rest ih =>
    intro k v k2 hne
    obtain ⟨k0, v0⟩ := e
    by_cases hk : k0 = k
    · rw [show updAll ((k0, v0) :: rest) k v = (k, v) :: updAll rest k v from by
        simp [updAll, hk]]
      have ha : k ≠ k2 := fun he => hne he.symm
      have hb : k0 ≠ k2 := by rw [hk]; exact ha
      rw [show getFile ((k, v) :: updAll rest k v) k2 = getFile (updAll rest k v) k2 from by
        simp [getFile, ha]]
      rw [ih k v k2 hne]
      rw [show getFile ((k0, v0) :: rest) k2 = getFile rest k2 from by simp [getFile, hb]]
    · rw [show updAll ((k0, v0) :: rest) k v = (k0, v0) :: updAll rest k v from by
        simp [updAll, hk]]
      by_cases h2 : k0 = k2
      · rw [show getFile ((k0, v0) :: updAll rest k v) k2 = some v0 from by simp [getFile, h2],
          show getFile ((k0, v0) :: rest) k2 = some v0 from by simp [getFile, h2]]
      · rw [show getFile ((k0, v0) :: updAll rest k v) k2 = getFile (updAll rest k v) k2 from by
            simp [getFile, h2],
          show getFile ((k0, v0) :: rest) k2 = getFile rest k2 from by simp [getFile, h2]]
        exact ih k v k2 hne

theorem setFile_getFile_self : ∀ (st : OutState) (k v : Str),
    getFile (setFile st k v) k = some v := by
  intro st
  induction st with
  | nil => intro k v; simp [setFile, dictInsert, getFile]
  | cons e rest ih =>
    intro k v
    obtain ⟨k0, v0⟩ := e
    by_cases hk : k0 = k
    · rw [show setFile ((k0, v0) :: rest) k v = (k, v) :: updAll rest k v from by
        simp [setFile, dictInsert, hk]]
      simp [getFile]
    · rw [show setFile ((k0, v0) :: rest) k v = (k0, v0) :: setFile rest k v from by
        simp [setFile, dictInsert, hk]]
      rw [show getFile ((k0, v0) :: setFile rest k v) k = getFile (setFile rest k v) k from by
        simp [getFile, hk]]
      exact ih k v

theorem setFile_getFile_other : ∀ (st : OutState) (k v k2 : Str), k2 ≠ k →
    getFile (setFile st k v) k2 = getFile st k2 := by
  intro st
  induction st with
  | nil =>
    intro k v k2 hne
    have ha : k ≠ k2 := fun he => hne he.symm
    simp [setFile, dictInsert, getFile, ha]
  | cons e rest ih =>
    intro k v k2 hne
    obtain ⟨k0, v0⟩ := e
    by_cases hk : k0 = k
    · rw [show setFile ((k0, v0) :: rest) k v = (k, v) :: updAll rest k v from by
        simp [setFile, dictInsert, hk]]
      have ha : k ≠ k2 := fun he => hne he.symm
      have hb : k0 ≠ k2 := by rw [hk]; exact ha
      rw [show getFile ((k, v) :: updAll rest k v) k2 = getFile (updAll rest k v) k2 from by
        simp [getFile, ha]]
      rw [updAll_getFile_other rest k v k2 hne]
      rw [show getFile ((k0, v0) :: rest) k2 = getFile rest k2 from by simp [getFile, hb]]
    · rw [show setFile ((k0, v0) :: rest) k v = (k0, v0) :: setFile rest k v from by
        simp [setFile, dictInsert, hk]]
      by_cases h2 : k0 = k2
      · rw [show getFile ((k0, v0) :: setFile rest k v) k2 = some v0 from by simp [getFile, h2],
          show getFile ((k0, v0) :: rest) k2 = some v0 from by simp [getFile, h2]]
      · rw [show getFile ((k0, v0) :: setFile rest k v) k2 = getFile (setFile rest k v) k2 from by
            simp [getFile, h2],
          show getFile ((k0, v0) :: rest) k2 = getFile rest k2 from by simp [getFile, h2]]
        exact ih k v k2 hne

theorem setFile_keys : ∀ (st : OutState) (k v : Str),
    (setFile st k v).map Prod.fst =
      if k ∈ st.map Prod.fst then st.map Prod.fst else st.map Prod.fst ++ [k] := by
  intro st
  induction st with
  | nil => intro k v; simp [setFile, dictInsert]
  | cons e rest ih =>
    intro k v
    obtain ⟨k0, v0⟩ := e
    by_cases hk : k0 = k
    · subst hk
      simp [setFile, dictInsert, updAll_keys]
    · rw [show setFile ((k0, v0) :: rest) k v = (k0, v0) :: setFile rest k v from by
        simp [setFile, dictInsert, hk]]
      simp only [List.map_cons]
      rw [ih k v]
      by_cases hm : k ∈ rest.map Prod.fst
      · rw [if_pos hm, if_pos (by simp [hm])]
      · have hknotin : k ∉ k0 :: rest.map Prod.fst := by
          intro hc
          rcases List.mem_cons.mp hc with h1 | h1
          · exact hk h1.symm
          · exact hm h1
        rw [if_neg hm, if_neg hknotin]
        simp

theorem setFile_keys_nodup (st : OutState) (k v : Str) (hnd : (st.map Prod.fst).Nodup) :
    ((setFile st k v).map Prod.fst).Nodup := by
  rw [setFile_keys]
  by_cases hm : k ∈ st.map Prod.fst
  · rwa [if_pos hm]
  · rw [if_neg hm]
    refine List.Nodup.append hnd (List.nodup_singleton k) ?_
    intro a ha hb
    rw [List.mem_singleton.mp hb] at ha
    exact hm ha

theorem setFile_keys_superset (st : OutState) (k v k2 : Str) (h : k2 ∈ st.map Prod.fst) :
    k2 ∈ (setFile st k v).map Prod.fst := by
  rw [setFile_keys]
  by_cases hm : k ∈ st.map Prod.fst
  · rwa [if_pos hm]
  · rw [if_neg hm]
    exact List.mem_append.mpr (Or.inl h)

theorem setFile_keys_self (st : OutState) (k v : Str) : k ∈ (setFile st k v).map Prod.fst := by
  rw [setFile_keys]
  by_cases hm : k ∈ st.map Prod.fst
  · rwa [if_pos hm]
  · rw [if_neg hm]
    simp

theorem outstate_ext : ∀ (s1 s2 : OutState), (s1.map Prod.fst).Nodup →
    s1.map Prod.fst = s2.map Prod.fst → (∀ k, getFile s1 k = getFile s2 k) → s1 = s2 := by
  intro s1
  induction s1 with
  | nil =>
    intro s2 _ hkeys _
    have : s2.map Prod.fst = [] := hkeys.symm
    cases s2 with
    | nil => rfl
    | cons e t => simp at this
  | cons e t1 ih =>
    intro s2 hnd hkeys hget
    obtain ⟨k, v⟩ := e
    cases s2 with
    | nil => simp at hkeys
    | cons e2 t2 =>
      obtain ⟨k2, v2⟩ := e2
      simp only [List.map_cons] at hkeys
      injection hkeys with hk hkeys2
      subst hk
      have hnd2 : k ∉ t1.map Prod.fst ∧ (t1.map Prod.fst).Nodup := by
        have h := hnd
        simp only [List.map_cons] at h
        exact List.nodup_cons.mp h
      have hv : v = v2 := by
        have h := hget k
        simp [getFile] at h
        exact h
      subst hv
      have hget2 : ∀ k3, getFile t1 k3 = getFile t2 k3 := by
        intro k3
        by_cases h3 : k = k3
        · subst h3
          rw [getFile_none t1 k hnd2.1, getFile_none t2 k (hkeys2 ▸ hnd2.1)]
        · have h := hget k3
          simp only [getFile, if_neg h3] at h
          exact h
      rw [ih t2 hnd2.2 hkeys2 hget2]

theorem applyWrites_concat (st : OutState) (ws : List (Str × Str)) (w : Str × Str) :
    applyWrites st (ws ++ [w]) = setFile (applyWrites st ws) w.1 w.2 := by
  simp [applyWrites, List.foldl_append]

theorem lastVal_concat (ws : List (Str × Str)) (w : Str × Str) (k : Str) :
    lastVal (ws ++ [w]) k = if w.1 = k then some w.2 else lastVal ws k := by
  simp [lastVal, List.foldl_append]

theorem getFile_applyWrites : ∀ (ws : List (Str × Str)) (st : OutState) (k : Str),
    getFile (applyWrites st ws) k = (lastVal ws k).or (getFile st k) := by
  intro ws
  induction ws using List.reverseRecOn with
  | nil => intro st k; simp [applyWrites, lastVal]
  | append_singleton ws w ih =>
    intro st k
    rw [applyWrites_concat, lastVal_concat]
    by_cases hk : w.1 = k
    · rw [if_pos hk, hk, setFile_getFile_self]
      rfl
    · rw [if_neg hk, setFile_getFile_other _ _ _ _ (fun he => hk he.symm), ih]

theorem applyWrites_keys_nodup : ∀ (ws : List (Str × Str)) (st : OutState),
    (st.map Prod.fst).Nodup → ((applyWrites st ws).map Prod.fst).Nodup := by
  intro ws
  induction ws using List.reverseRecOn with
  | nil => intro st h; exact h
  | append_singleton ws w ih =>
    intro st h
    rw [applyWrites_concat]
    exact setFile_keys_nodup _ _ _ (ih st h)

theorem applyWrites_keys_superset : ∀ (ws : List (Str × Str)) (st : OutState) (k : Str),
    k ∈ st.map Prod.fst → k ∈ (applyWrites st ws).map Prod.fst := by
  intro ws
  induction ws using List.reverseRecOn with
  | nil => intro st k h; exact h
  | append_singleton ws w ih =>
    intro st k h
    rw [applyWrites_concat]
    exact setFile_keys_superset _ _ _ _ (ih st k h)

theorem applyWrites_keys_mem : ∀ (ws : List (Str × Str)) (st : OutState) (w : Str × Str),
    w ∈ ws → w.1 ∈ (applyWrites st ws).map Prod.fst := by
  intro ws
  induction ws using List.reverseRecOn with
  | nil => intro st w h; simp at h
  | append_singleton ws w2 ih =>
    intro st w h
    rw [applyWrites_concat]
    rcases List.mem_append.mp h with h1 | h1
    · exact setFile_keys_superset _ _ _ _ (ih st w h1)
    · rw [List.mem_singleton.mp h1]
      exact setFile_keys_self _ _ _

theorem applyWrites_keys_id : ∀ (ws : List (Str × Str)) (st : OutState),
    (∀ w ∈ ws, w.1 ∈ st.map Prod.fst) →
    (applyWrites st ws).map Prod.fst = st.map Prod.fst := by
  intro ws
  induction ws with
  | nil => intro st _; rfl
  | cons w ws ih =>
    intro st h
    have hw : w.1 ∈ st.map Prod.fst := h w (List.mem_cons_self _ _)
    have hkeys : (setFile st w.1 w.2).map Prod.fst = st.map Prod.fst := by
      rw [setFile_keys, if_pos hw]
    rw [show applyWrites st (w :: ws) = applyWrites (setFile st w.1 w.2) ws from rfl]
    rw [ih (setFile st w.1 w.2) (fun w2 hw2 => hkeys ▸ h w2 (List.mem_cons_of_mem _ hw2)), hkeys]

theorem applyWrites_idem (ws : List (Str × Str)) (st : OutState)
    (hnd : (st.map Prod.fst).Nodup) :
    applyWrites (applyWrites st ws) ws = applyWrites st ws := by
  have hnd1 : ((applyWrites st ws).map Prod.fst).Nodup := applyWrites_keys_nodup ws st hnd
  apply outstate_ext _ _ (applyWrites_keys_nodup ws _ hnd1)
  · exact applyWrites_keys_id ws _ (fun w hw => applyWrites_keys_mem ws st w hw)
  · intro k
    rw [getFile_applyWrites, getFile_applyWrites]
    cases hlv : lastVal ws k with
    | none => simp [Option.or]
    | some v => simp [Option.or]

/-- C9: running the consolidation twice on an unchanged source tree with
the same configuration and the same (deterministic) tokenizer leaves the
output directory in the same state as running it once: every per-folder
artifact and the master artifact are byte-identical between the runs. -/
theorem claim9_idempotent (src : SrcTree) (srcD outD : Str) (folders : List Str)
    (tok : Str → Nat) (st : OutState) (hnd : (st.map Prod.fst).Nodup) :
    applyWrites (applyWrites st (runWrites src srcD outD folders tok))
        (runWrites src srcD outD folders tok) =
      applyWrites st (runWrites src srcD outD folders tok) :=
  applyWrites_idem (runWrites src srcD outD folders tok) st hnd

/-- Witness for C9: the concrete one-folder run applied twice to an
empty output directory. -/
theorem claim9_witness :
    applyWrites
        (applyWrites []
          (runWrites [(str "lib", FsNode.dir (Dir.node [(str "a.ts", some (str "x"))] []))]
            (str "src") (str "node_consolidate") [str "lib"] (fun s => s.length)))
        (runWrites [(str "lib", FsNode.dir (Dir.node [(str "a.ts", some (str "x"))] []))]
          (str "src") (str "node_consolidate") [str "lib"] (fun s => s.length)) =
      applyWrites []
        (runWrites [(str "lib", FsNode.dir (Dir.node [(str "a.ts", some (str "x"))] []))]
          (str "src") (str "node_consolidate") [str "lib"] (fun s => s.length)) :=
  claim9_idempotent [(str "lib", FsNode.dir (Dir.node [(str "a.ts", some (str "x"))] []))]
    (str "src") (str "node_consolidate") [str "lib"] (fun s => s.length) [] (by decide)
